import Mathlib

/-!
Verification of the segmented write-ahead log (WAL): a shallow embedding of
the segment layer (`segment.Write`, `segment.writeInternal`, `segment.Read`,
`segment.Size`, `segment.Sync`, `segment.Close`) and of the WAL layer
(`WAL.Write`, `WAL.Read`, `WAL.isFull` and the roll-over step), together with
theorems about the write/read round-trip, CRC corruption detection, padding,
chunk splitting, counter invariants and 32-bit arithmetic wrap-around.

Modelling conventions:
* machine bytes are `Nat` values (well-formed files carry values `< 256`);
* a segment file is the list of its bytes; appending to the file models
  the append-only file descriptor;
* `uint32` arithmetic is explicit arithmetic modulo `2^32`; `int64`
  quantities are `Int` (no wrap occurs in `int64` range for this code);
* Go run-time panics (slice out of range, the block-size assertion) are
  modelled as distinct error values, since a panic is observably not a
  returned error;
* unbounded `for` loops are modelled with an explicit fuel argument large
  enough that fuel exhaustion corresponds exactly to a non-terminating loop;
* file-system effects (`fsync`, `close`) cannot fail in the model: the
  durable-file interface is abstracted as infallible.
-/

deriving instance DecidableEq for Except

/-! ## 32-bit arithmetic -/

def U32 : Nat := 4294967296

def u32 (n : Nat) : Nat := n % U32

def u32add (a b : Nat) : Nat := (a + b) % U32

def u32sub (a b : Nat) : Nat := (a + (U32 - b % U32)) % U32

def u32mul (a b : Nat) : Nat := (a * b) % U32

/-! ## Constants (from the source) -/

def blockSize : Nat := 32768

def chunkHeaderSize : Nat := 7

/-! ## CRC32 (IEEE), bitwise definition of `hash/crc32.ChecksumIEEE` -/

def CRCPOLY : Nat := 0xEDB88320

def crcBit (s : Nat) : Nat := if s % 2 = 1 then (s / 2) ^^^ CRCPOLY else s / 2

def crcByte (s b : Nat) : Nat := crcBit^[8] (s ^^^ b)

def crc32 (data : List Nat) : Nat := (data.foldl crcByte 0xFFFFFFFF) ^^^ 0xFFFFFFFF

/-! ## Little-endian encoding and decoding -/

def le16 (n : Nat) : List Nat := [n % 256, n / 256 % 256]

def le32 (n : Nat) : List Nat :=
  [n % 256, n / 256 % 256, n / 65536 % 256, n / 16777216 % 256]

def dec16 (b0 b1 : Nat) : Nat := b0 + 256 * b1

def dec32 (b0 b1 b2 b3 : Nat) : Nat := b0 + 256 * b1 + 65536 * b2 + 16777216 * b3

/-! ## The segment data model -/

structure Segment where
  id : Nat
  file : List Nat
  currentBlockNumber : Nat
  currentBlockSize : Nat
  closed : Bool
  deriving DecidableEq

structure ChunkPosition where
  SegmentId : Nat
  BlockNumber : Nat
  ChunkOffset : Int
  deriving DecidableEq

inductive SegErr
  | closed
  | invalidCRC
  | bounds
  | assertFail
  | fuelOut
  deriving DecidableEq

/-- The framed bytes of one chunk: `checksum(4) | length(2) | type(1) | payload`. -/
def chunkBody (dataSize : Nat) (chunkType : Nat) (payload : List Nat) : List Nat :=
  le16 dataSize ++ chunkType :: payload

def encChunk (chunkType : Nat) (payload : List Nat) : List Nat :=
  le32 (crc32 (chunkBody payload.length chunkType payload)) ++
    chunkBody payload.length chunkType payload

/-- `segment.writeInternal`: frame one chunk and append it to the file.
The two `assertFail` branches model the Go run-time panic when the buffer
allocation wraps and the explicit `panic("wrong! can not exceed the block
size")` assertion. -/
def Segment.writeInternal (seg : Segment) (data : List Nat) (chunkType : Nat) :
    Except SegErr Segment :=
  let dataSize := u32 data.length
  if u32add dataSize chunkHeaderSize < chunkHeaderSize then .error .assertFail
  else
    let payload := data.take dataSize
    let buf := le32 (crc32 (chunkBody dataSize chunkType payload)) ++
      chunkBody dataSize chunkType payload
    if seg.currentBlockSize > blockSize then .error .assertFail
    else
      let newSize := u32add seg.currentBlockSize (u32add dataSize chunkHeaderSize)
      if newSize = blockSize then
        .ok { seg with file := seg.file ++ buf,
                       currentBlockNumber := u32add seg.currentBlockNumber 1,
                       currentBlockSize := 0 }
      else
        .ok { seg with file := seg.file ++ buf, currentBlockSize := newSize }

/-- The padding step at the top of `segment.Write`: when the remaining block
tail cannot hold a chunk header, zero-fill the tail and advance to the next
block. -/
def Segment.maybePad (seg : Segment) : Segment :=
  if u32add seg.currentBlockSize chunkHeaderSize ≥ blockSize then
    let seg1 :=
      if seg.currentBlockSize < blockSize then
        { seg with file := seg.file ++ List.replicate (u32sub blockSize seg.currentBlockSize) 0 }
      else seg
    { seg1 with currentBlockNumber := u32add seg1.currentBlockNumber 1,
                currentBlockSize := 0 }
  else seg

/-- The batch loop of `segment.Write` (`for leftSize > 0`).  The fuel bounds
the iteration count; `segment.Write` passes fuel `dataSize + 1`, which the
loop never exhausts since every iteration consumes at least one payload
byte. -/
def Segment.writeLoop (data : List Nat) : Nat → Segment → Nat → Except SegErr Segment
  | 0, _, _ => .error .fuelOut
  | fuel + 1, seg, leftSize =>
    if leftSize = 0 then .ok seg
    else
      let dataSize := u32 data.length
      let room := u32sub (u32sub blockSize seg.currentBlockSize) chunkHeaderSize
      let chunkSize := if room > leftSize then leftSize else room
      let endIdx0 := u32add (u32sub dataSize leftSize) chunkSize
      let endIdx := if endIdx0 > dataSize then dataSize else endIdx0
      let src := (data.take endIdx).drop (u32sub dataSize leftSize)
      let chunk := src.take chunkSize ++ List.replicate (chunkSize - src.length) 0
      let chunkType := if leftSize = dataSize then 1 else if leftSize = chunkSize then 3 else 2
      (seg.writeInternal chunk chunkType).bind fun seg1 =>
        Segment.writeLoop data fuel seg1 (leftSize - chunkSize)

/-- `segment.Write`. -/
def Segment.Write (seg : Segment) (data : List Nat) :
    Except SegErr ChunkPosition × Segment :=
  if seg.closed then (.error .closed, seg)
  else
    let seg1 := seg.maybePad
    let position : ChunkPosition :=
      ⟨seg1.id, seg1.currentBlockNumber, (seg1.currentBlockSize : Int)⟩
    let dataSize := u32 data.length
    if u32add (u32add seg1.currentBlockSize dataSize) chunkHeaderSize ≤ blockSize then
      match seg1.writeInternal data 0 with
      | .ok seg2 => (.ok position, seg2)
      | .error e => (.error e, seg1)
    else
      match Segment.writeLoop data (dataSize + 1) seg1 dataSize with
      | .ok seg2 => (.ok position, seg2)
      | .error e => (.error e, seg1)

/-- The file offset `segment.Read` computes for a block:
`int64(blockNumber * blockSize)` with the multiplication in `uint32`. -/
def readBlockOffset (blockNumber : Nat) : Int := (u32mul blockNumber blockSize : Nat)

/-- The `for` loop of `segment.Read`: load the block, parse the chunk header
at the offset, accumulate the chunk payload, verify the CRC, and follow
FIRST/MIDDLE chunks into the next block.  `bounds` models the Go slice
out-of-range panics. -/
def readChunks (file : List Nat) : Nat → Nat → Int → List Nat → Except SegErr (List Nat)
  | 0, _, _, _ => .error .fuelOut
  | fuel + 1, blockNumber, chunkOffset, result =>
    let segSize : Int := (file.length : Int)
    let offset : Int := readBlockOffset blockNumber
    let size : Int := if 32768 + offset > segSize then segSize - offset else 32768
    if size < 0 then .error .bounds
    else
      let buf := (file.drop offset.toNat).take size.toNat
      if chunkOffset < 0 ∨ chunkOffset + 7 > (buf.length : Int) then .error .bounds
      else
        let header := (buf.drop chunkOffset.toNat).take chunkHeaderSize
        let legnth := dec16 (header.getD 4 0) (header.getD 5 0)
        if chunkOffset + 7 + (legnth : Int) > (buf.length : Int) then .error .bounds
        else
          let result1 := result ++ (buf.drop (chunkOffset + 7).toNat).take legnth
          let checksum := crc32 ((buf.drop (chunkOffset + 4).toNat).take (3 + legnth))
          let savedSum := dec32 (header.getD 0 0) (header.getD 1 0) (header.getD 2 0) (header.getD 3 0)
          if savedSum ≠ checksum then .error .invalidCRC
          else
            let chunkType := header.getD 6 0
            if chunkType = 0 ∨ chunkType = 3 then .ok result1
            else readChunks file fuel (u32add blockNumber 1) 0 result1

/-- `segment.Read`.  The fuel `file.length + 2` strictly dominates the number
of loop iterations of any terminating run of the Go loop (each iteration
consumes a seven-byte header from a distinct block). -/
def Segment.Read (seg : Segment) (blockNumber : Nat) (chunkOffset : Int) :
    Except SegErr (List Nat) :=
  if seg.closed then .error .closed
  else readChunks seg.file (seg.file.length + 2) blockNumber chunkOffset []

/-- `segment.Size`: `int64(currentBlockNumber*blockSize + currentBlockSize)`
with the arithmetic in `uint32`. -/
def Segment.Size (seg : Segment) : Int :=
  (u32add (u32mul seg.currentBlockNumber blockSize) seg.currentBlockSize : Nat)

/-- The durable-file `fsync`, abstracted as infallible. -/
def fileSync (_ : Segment) : Except SegErr Unit := .ok ()

/-- `segment.Sync`: a closed segment returns success without touching the
file descriptor. -/
def Segment.Sync (seg : Segment) : Except SegErr Unit :=
  if seg.closed then .ok () else fileSync seg

/-- `segment.Close` (the file-descriptor close is abstracted as infallible). -/
def Segment.Close (seg : Segment) : Except SegErr Unit × Segment :=
  if seg.closed then (.ok (), seg) else (.ok (), { seg with closed := true })

/-! ## The WAL data model -/

structure Options where
  SegmentSize : Int
  Sync : Bool
  BytesPerSync : Nat
  deriving DecidableEq

structure WAL where
  activeSegment : Segment
  olderSegments : Nat → Option Segment
  options : Options
  bytesWrite : Nat

inductive WalErr
  | valueTooLarge
  | segmentNotFound
  | seg (e : SegErr)
  deriving DecidableEq

/-- `openSegmentFile` for a segment id that has no file on disk yet (the
roll-over path always opens a fresh id): the file is created empty, so the
block counters start at zero. -/
def openSegmentFile (id : Nat) : Segment := ⟨id, [], 0, 0, false⟩

/-- `WAL.isFull`. -/
def WAL.isFull (wal : WAL) (delta : Int) : Bool :=
  wal.activeSegment.Size + delta + (chunkHeaderSize : Int) > wal.options.SegmentSize

/-- The roll-over block inside `WAL.Write`: fsync the active segment (a
no-op in the model), reset the bytes-written counter, open segment
`id + 1`, move the previous active segment into the older-segments map and
install the new one as active. -/
def WAL.rollover (wal : WAL) : WAL :=
  { wal with
    bytesWrite := 0,
    olderSegments := fun i =>
      if i = wal.activeSegment.id then some wal.activeSegment else wal.olderSegments i,
    activeSegment := openSegmentFile (u32add wal.activeSegment.id 1) }

/-- The tail of `WAL.Write` after the size check and possible roll-over:
write to the active segment, add the appended byte count to `bytesWrite`
(modelled from the spec: `position.ChunkSize` is the number of bytes the
write appended to the segment file — the snapshot of `segment` in scope
does not carry the field itself), and apply the sync policy. -/
def WAL.writeToActive (wal : WAL) (data : List Nat) :
    Except WalErr ChunkPosition × WAL :=
  let r := wal.activeSegment.Write data
  let wal1 := { wal with activeSegment := r.2 }
  match r.1 with
  | .error e => (.error (.seg e), wal1)
  | .ok position =>
    let chunkSize := u32 (r.2.file.length - wal.activeSegment.file.length)
    let wal2 := { wal1 with bytesWrite := u32add wal1.bytesWrite chunkSize }
    let needSync := wal2.options.Sync ||
      (decide (0 < wal2.options.BytesPerSync) && decide (wal2.options.BytesPerSync ≤ wal2.bytesWrite))
    let wal3 := if needSync then { wal2 with bytesWrite := 0 } else wal2
    (.ok position, wal3)

/-- `WAL.Write`: the too-large check, then roll-over when the active segment
is full, then the write itself. -/
def WAL.Write (wal : WAL) (data : List Nat) : Except WalErr ChunkPosition × WAL :=
  if (data.length : Int) + (chunkHeaderSize : Int) > wal.options.SegmentSize then
    (.error .valueTooLarge, wal)
  else
    let wal1 := if wal.isFull (data.length : Int) then wal.rollover else wal
    wal1.writeToActive data

/-- `WAL.Read`: locate the segment by id (active first, then the older map)
and delegate to `segment.Read`. -/
def WAL.Read (wal : WAL) (pos : ChunkPosition) : Except WalErr (List Nat) :=
  let seg? := if pos.SegmentId = wal.activeSegment.id then some wal.activeSegment
              else wal.olderSegments pos.SegmentId
  match seg? with
  | none => .error .segmentNotFound
  | some seg =>
    match seg.Read pos.BlockNumber pos.ChunkOffset with
    | .ok data => .ok data
    | .error e => .error (.seg e)

/-! ## Specification-side descriptions used by the theorems -/

/-- Well-formed segment state: the block counters agree with the file length
and the intra-block offset is inside the block.  `openSegmentFile`
establishes this and every write preserves it. -/
def SegWF (seg : Segment) : Prop :=
  seg.file.length = seg.currentBlockNumber * blockSize + seg.currentBlockSize ∧
  seg.currentBlockSize < blockSize

/-- The chunk split rule of the batch path, as a list of `(type, payload)`
pairs: each chunk takes `min(remaining, blockSize - off - 7)` payload bytes;
the first iteration is typed FIRST (1), the iteration consuming the whole
remainder LAST (3), all others MIDDLE (2). -/
def splitChunksAux : Nat → Bool → Nat → List Nat → List (Nat × List Nat)
  | 0, _, _, _ => []
  | fuel + 1, first, off, data =>
    if data.isEmpty then []
    else
      let c := min (blockSize - off - chunkHeaderSize) data.length
      let t : Nat := if first then 1 else if data.length = c then 3 else 2
      (t, data.take c) :: splitChunksAux fuel false 0 (data.drop c)

def splitChunks (off : Nat) (data : List Nat) : List (Nat × List Nat) :=
  splitChunksAux data.length true off data

/-- Only the chunk types of the split (payload-free mirror of
`splitChunks`). -/
def chunkTypes : Nat → Bool → Nat → Nat → List Nat
  | 0, _, _, _ => []
  | fuel + 1, first, off, len =>
    if len = 0 then []
    else
      let c := min (blockSize - off - chunkHeaderSize) len
      let t : Nat := if first then 1 else if len = c then 3 else 2
      t :: chunkTypes fuel false 0 (len - c)

def encodeFrames (L : List (Nat × List Nat)) : List Nat :=
  (L.map fun tp => encChunk tp.1 tp.2).flatten

def framesLen (L : List (Nat × List Nat)) : Nat :=
  (L.map fun tp => chunkHeaderSize + tp.2.length).sum

/-- A chunk sequence as laid out by a write starting at intra-block offset
`off`: every chunk except the last fills its block exactly and is typed
FIRST or MIDDLE; the last fits in its block and is typed FULL or LAST. -/
def GoodChunks : Nat → List (Nat × List Nat) → Prop
  | _, [] => False
  | off, [(t, p)] => (t = 0 ∨ t = 3) ∧ off + chunkHeaderSize + p.length ≤ blockSize
  | off, (t, p) :: rest => (t = 1 ∨ t = 2) ∧ off + chunkHeaderSize + p.length = blockSize ∧
      GoodChunks 0 rest

/-- Whether offset `r` into the concatenated frames of `L` addresses one of
the two little-endian length bytes of some chunk header. -/
def isLenByte : List (Nat × List Nat) → Nat → Bool
  | [], _ => false
  | (_, p) :: rest, r =>
    if r < chunkHeaderSize + p.length then decide (r = 4) || decide (r = 5)
    else isLenByte rest (r - (chunkHeaderSize + p.length))

/-- Flip bit `k` of the byte at index `i` of a file. -/
def flipBitAt (file : List Nat) (i k : Nat) : List Nat :=
  file.set i (file.getD i 0 ^^^ 2 ^ k)

/-- The `(type, payload)` chunks a `segment.Write` call frames for `data`,
as laid out on disk right after any padding. -/
def writeFrameChunks (seg : Segment) (data : List Nat) : List (Nat × List Nat) :=
  if seg.maybePad.currentBlockSize + data.length + chunkHeaderSize ≤ blockSize then
    [(0, data)]
  else splitChunks seg.maybePad.currentBlockSize data

/-! ## Arithmetic facts about the 32-bit operations -/

theorem U32_eq_pow : U32 = 2 ^ 32 := by norm_num [U32]

theorem u32_eq {n : Nat} (h : n < U32) : u32 n = n := by
  simp [u32, Nat.mod_eq_of_lt h]

theorem u32add_eq {a b : Nat} (h : a + b < U32) : u32add a b = a + b := by
  simp [u32add, Nat.mod_eq_of_lt h]

theorem u32sub_eq {a b : Nat} (ha : a < U32) (hb : b ≤ a) : u32sub a b = a - b := by
  have ha' : a < 4294967296 := ha
  show (a + (4294967296 - b % 4294967296)) % 4294967296 = a - b
  omega

theorem u32mul_eq {a b : Nat} (h : a * b < U32) : u32mul a b = a * b := by
  simp [u32mul, Nat.mod_eq_of_lt h]

/-! ## CRC32: range and single-byte-difference injectivity -/

theorem crcBit_lt {s : Nat} (h : s < U32) : crcBit s < U32 := by
  rw [U32_eq_pow] at *
  unfold crcBit
  have hdiv : s / 2 < 2 ^ 32 := by omega
  split
  · exact Nat.xor_lt_two_pow hdiv (by norm_num [CRCPOLY])
  · exact hdiv

theorem crcIter_lt (n : Nat) {s : Nat} (h : s < U32) : crcBit^[n] s < U32 := by
  induction n generalizing s with
  | zero => simpa using h
  | succ n ih => rw [Function.iterate_succ_apply]; exact ih (crcBit_lt h)

theorem crcByte_lt {s b : Nat} (hs : s < U32) (hb : b < 256) : crcByte s b < U32 := by
  unfold crcByte
  refine crcIter_lt 8 ?_
  rw [U32_eq_pow] at *
  exact Nat.xor_lt_two_pow hs (by omega)

theorem crcFold_lt {l : List Nat} (hl : ∀ b ∈ l, b < 256) :
    ∀ {s : Nat}, s < U32 → l.foldl crcByte s < U32 := by
  induction l with
  | nil => intro s hs; simpa using hs
  | cons x xs ih =>
    intro s hs
    simp only [List.foldl_cons]
    exact ih (fun b hb => hl b (List.mem_cons_of_mem _ hb))
      (crcByte_lt hs (hl x (List.mem_cons_self _ _)))

theorem crc32_lt {l : List Nat} (hl : ∀ b ∈ l, b < 256) : crc32 l < U32 := by
  unfold crc32
  rw [U32_eq_pow]
  exact Nat.xor_lt_two_pow (by rw [← U32_eq_pow]; exact crcFold_lt hl (by norm_num [U32]))
    (by norm_num)

theorem xor_left_cancel {c a b : Nat} (h : c ^^^ a = c ^^^ b) : a = b := by
  have h2 := congrArg (fun x => c ^^^ x) h
  simpa [← Nat.xor_assoc, Nat.xor_self, Nat.zero_xor] using h2

theorem xor_right_cancel {c a b : Nat} (h : a ^^^ c = b ^^^ c) : a = b := by
  rw [Nat.xor_comm a c, Nat.xor_comm b c] at h
  exact xor_left_cancel h

theorem xor_flip_ne (b k : Nat) : b ^^^ 2 ^ k ≠ b := by
  intro h
  have h2 : b ^^^ 2 ^ k = b ^^^ 0 := by simpa [Nat.xor_zero] using h
  have := xor_left_cancel h2
  exact absurd this (Nat.pos_iff_ne_zero.mp (Nat.pos_pow_of_pos k (by norm_num)))

theorem crcBit_inj {a b : Nat} (ha : a < U32) (hb : b < U32) (h : crcBit a = crcBit b) :
    a = b := by
  have hP : Nat.testBit CRCPOLY 31 = true := by decide
  unfold crcBit at h
  rw [U32_eq_pow] at ha hb
  have hda : a / 2 < 2 ^ 31 := by omega
  have hdb : b / 2 < 2 ^ 31 := by omega
  rcases Nat.mod_two_eq_zero_or_one a with h1 | h1 <;>
    rcases Nat.mod_two_eq_zero_or_one b with h2 | h2
  · rw [if_neg (by omega), if_neg (by omega)] at h; omega
  · rw [if_neg (by omega), if_pos (by omega)] at h
    exfalso
    have h31 := congrArg (fun x => Nat.testBit x 31) h
    simp [Nat.testBit_xor, Nat.testBit_lt_two_pow hda, Nat.testBit_lt_two_pow hdb, hP]
      at h31
  · rw [if_pos (by omega), if_neg (by omega)] at h
    exfalso
    have h31 := congrArg (fun x => Nat.testBit x 31) h
    simp [Nat.testBit_xor, Nat.testBit_lt_two_pow hda, Nat.testBit_lt_two_pow hdb, hP]
      at h31
  · rw [if_pos (by omega), if_pos (by omega)] at h
    have := xor_right_cancel h
    omega

theorem crcIter_inj (n : Nat) {a b : Nat} (ha : a < U32) (hb : b < U32)
    (h : crcBit^[n] a = crcBit^[n] b) : a = b := by
  induction n generalizing a b with
  | zero => simpa using h
  | succ n ih =>
    rw [Function.iterate_succ_apply, Function.iterate_succ_apply] at h
    exact crcBit_inj ha hb (ih (crcBit_lt ha) (crcBit_lt hb) h)

theorem crcByte_state_inj {s t b : Nat} (hs : s < U32) (ht : t < U32) (hb : b < 256)
    (h : crcByte s b = crcByte t b) : s = t := by
  unfold crcByte at h
  have hb32 : b < 2 ^ 32 := by omega
  have h1 : s ^^^ b = t ^^^ b :=
    crcIter_inj 8 (by rw [U32_eq_pow]; exact Nat.xor_lt_two_pow (by rwa [← U32_eq_pow]) hb32)
      (by rw [U32_eq_pow]; exact Nat.xor_lt_two_pow (by rwa [← U32_eq_pow]) hb32) h
  exact xor_right_cancel h1

theorem crcByte_byte_inj {s b c : Nat} (hs : s < U32) (hb : b < 256) (hc : c < 256)
    (h : crcByte s b = crcByte s c) : b = c := by
  unfold crcByte at h
  have hb32 : b < 2 ^ 32 := by omega
  have hc32 : c < 2 ^ 32 := by omega
  have h1 : s ^^^ b = s ^^^ c :=
    crcIter_inj 8 (by rw [U32_eq_pow]; exact Nat.xor_lt_two_pow (by rwa [← U32_eq_pow]) hb32)
      (by rw [U32_eq_pow]; exact Nat.xor_lt_two_pow (by rwa [← U32_eq_pow]) hc32) h
  exact xor_left_cancel h1

theorem crcFold_ne {l : List Nat} (hl : ∀ b ∈ l, b < 256) :
    ∀ {s t : Nat}, s < U32 → t < U32 → s ≠ t → l.foldl crcByte s ≠ l.foldl crcByte t := by
  induction l with
  | nil => intro s t _ _ hne; simpa using hne
  | cons x xs ih =>
    intro s t hs ht hne
    simp only [List.foldl_cons]
    have hx : x < 256 := hl x (List.mem_cons_self _ _)
    exact ih (fun b hb => hl b (List.mem_cons_of_mem _ hb)) (crcByte_lt hs hx)
      (crcByte_lt ht hx) (fun h => hne (crcByte_state_inj hs ht hx h))

/-- CRC32 distinguishes two byte strings of the same length that differ in
exactly one byte. -/
theorem crc32_flip_ne {pre suf : List Nat} {b c : Nat}
    (hpre : ∀ x ∈ pre, x < 256) (hsuf : ∀ x ∈ suf, x < 256)
    (hb : b < 256) (hc : c < 256) (hbc : b ≠ c) :
    crc32 (pre ++ b :: suf) ≠ crc32 (pre ++ c :: suf) := by
  unfold crc32
  intro h
  have h1 := xor_right_cancel h
  rw [List.foldl_append, List.foldl_append] at h1
  simp only [List.foldl_cons] at h1
  have hs : pre.foldl crcByte 0xFFFFFFFF < U32 := crcFold_lt hpre (by norm_num [U32])
  have h2 : crcByte (pre.foldl crcByte 0xFFFFFFFF) b ≠
      crcByte (pre.foldl crcByte 0xFFFFFFFF) c :=
    fun hh => hbc (crcByte_byte_inj hs hb hc hh)
  exact crcFold_ne hsuf (crcByte_lt hs hb) (crcByte_lt hs hc) h2 h1

/-! ## Little-endian codec facts -/

theorem dec32_le32_mod (n : Nat) :
    dec32 (n % 256) (n / 256 % 256) (n / 65536 % 256) (n / 16777216 % 256) = n % U32 := by
  simp only [dec32, U32]; omega

theorem dec16_le16 {n : Nat} (h : n < 65536) : dec16 (n % 256) (n / 256 % 256) = n := by
  simp only [dec16]; omega

theorem dec32_inj {a0 a1 a2 a3 b0 b1 b2 b3 : Nat}
    (ha0 : a0 < 256) (ha1 : a1 < 256) (ha2 : a2 < 256) (ha3 : a3 < 256)
    (hb0 : b0 < 256) (hb1 : b1 < 256) (hb2 : b2 < 256) (hb3 : b3 < 256)
    (h : dec32 a0 a1 a2 a3 = dec32 b0 b1 b2 b3) :
    a0 = b0 ∧ a1 = b1 ∧ a2 = b2 ∧ a3 = b3 := by
  simp only [dec32] at h; omega

/-! ## List slice helpers -/

theorem buf_slice {file : List Nat} {B m a n : Nat} (h : a + n ≤ m) :
    (((file.drop B).take m).drop a).take n = (file.drop (B + a)).take n := by
  rw [List.drop_take, List.drop_drop, List.take_take]
  congr 1
  omega

theorem slice_sub {file ws : List Nat} {A N : Nat} (hfile : (file.drop A).take N = ws)
    {a n : Nat} (h : a + n ≤ N) : (file.drop (A + a)).take n = (ws.drop a).take n := by
  rw [← hfile, List.drop_take, List.drop_drop, List.take_take]
  congr 1
  omega

theorem slice_length_le {file ws : List Nat} {A N : Nat}
    (hfile : (file.drop A).take N = ws) (hws : ws.length = N) (hN : 0 < N) :
    A + N ≤ file.length := by
  have h := congrArg List.length hfile
  simp only [List.length_take, List.length_drop, hws] at h
  have h2 : N ≤ file.length - A := by
    rcases Nat.le_total N (file.length - A) with h3 | h3
    · exact h3
    · rw [min_eq_right h3] at h; omega
  rcases Nat.le_total A file.length with hA | hA
  · omega
  · have h4 : file.length - A = 0 := by omega
    omega

theorem getD_of_slice {file ws : List Nat} {A N : Nat}
    (hfile : (file.drop A).take N = ws) (hlen : A + N ≤ file.length)
    {j : Nat} (hj : j < N) : file.getD (A + j) 0 = ws.getD j 0 := by
  subst hfile
  have h1 : j < ((file.drop A).take N).length := by
    simp [List.length_take, List.length_drop]; omega
  have h2 : A + j < file.length := by omega
  rw [List.getD_eq_getElem _ _ h1, List.getD_eq_getElem _ _ h2]
  rw [List.getElem_take, List.getElem_drop]

theorem slice_set_outside {file : List Nat} {i v A n : Nat} (h : A + n ≤ i) :
    ((file.set i v).drop A).take n = (file.drop A).take n := by
  apply List.ext_getElem
  · simp [List.length_take, List.length_drop, List.length_set]
  · intro j h1 h2
    have hj : j < n := by simp [List.length_take, List.length_drop] at h1; omega
    have hjf : A + j < file.length := by
      simp [List.length_take, List.length_drop, List.length_set] at h1; omega
    rw [List.getElem_take, List.getElem_drop, List.getElem_take, List.getElem_drop,
      List.getElem_set]
    rw [if_neg (by omega)]

theorem slice_set_inside {file : List Nat} {i v A n : Nat} (h1 : A ≤ i) (h2 : i < A + n) :
    ((file.set i v).drop A).take n = ((file.drop A).take n).set (i - A) v := by
  apply List.ext_getElem
  · simp [List.length_take, List.length_drop, List.length_set]
  · intro j hj1 hj2
    have hj : j < n := by simp [List.length_take, List.length_drop] at hj1; omega
    have hjf : A + j < file.length := by
      simp [List.length_take, List.length_drop, List.length_set] at hj1; omega
    rw [List.getElem_take, List.getElem_drop, List.getElem_set, List.getElem_set,
      List.getElem_take, List.getElem_drop]
    by_cases hij : i = A + j
    · rw [if_pos hij, if_pos (by omega)]
    · rw [if_neg hij, if_neg (by omega)]

/-! ## One iteration of the read loop over a framed chunk -/

theorem readStep {file : List Nat} {fuel bn off : Nat} {acc : List Nat}
    {w0 w1 w2 w3 b4 b5 ty : Nat} {q : List Nat}
    (hfits : off + 7 + q.length ≤ 32768)
    (hlen : dec16 b4 b5 = q.length)
    (hfile : (file.drop (bn * 32768 + off)).take (7 + q.length) =
      w0 :: w1 :: w2 :: w3 :: b4 :: b5 :: ty :: q)
    (hflen : file.length < U32) :
    readChunks file (fuel + 1) bn (off : Int) acc =
      if dec32 w0 w1 w2 w3 ≠ crc32 (b4 :: b5 :: ty :: q) then .error .invalidCRC
      else if ty = 0 ∨ ty = 3 then .ok (acc ++ q)
      else readChunks file fuel (u32add bn 1) 0 (acc ++ q) := by
  have hws : (w0 :: w1 :: w2 :: w3 :: b4 :: b5 :: ty :: q).length = 7 + q.length := by
    simp only [List.length_cons]; omega
  have hA : bn * 32768 + off + (7 + q.length) ≤ file.length :=
    slice_length_le hfile hws (by omega)
  have hbn32 : bn * 32768 < U32 := by omega
  have hoff : readBlockOffset bn = ((bn * 32768 : Nat) : Int) := by
    show ((u32mul bn blockSize : Nat) : Int) = _
    rw [show blockSize = 32768 from rfl, u32mul_eq hbn32]
  have hoffm : off + 7 + q.length ≤ min 32768 (file.length - bn * 32768) :=
    le_min (by omega) (by omega)
  have hsize : (if (32768 : Int) + readBlockOffset bn > ((file.length : Nat) : Int) then
      ((file.length : Nat) : Int) - readBlockOffset bn else 32768) =
      ((min 32768 (file.length - bn * 32768) : Nat) : Int) := by
    rw [hoff]
    split <;> rename_i hsp
    · rw [Nat.min_def]
      split <;> push_cast at * <;> omega
    · rw [Nat.min_def]
      split <;> push_cast at * <;> omega
  have hbuflen : ((file.drop (bn * 32768)).take (min 32768 (file.length - bn * 32768))).length
      = min 32768 (file.length - bn * 32768) := by
    simp only [List.length_take, List.length_drop]
    rw [min_eq_left]
    exact min_le_right _ _
  simp only [readChunks]
  rw [hsize]
  rw [if_neg (by push_cast; omega)]
  simp only [hoff, Int.toNat_natCast]
  rw [if_neg ?hg2]
  case hg2 =>
    rw [hbuflen]
    push_cast
    omega
  have h7 : (file.drop (bn * 32768 + off)).take 7 = [w0, w1, w2, w3, b4, b5, ty] := by
    have h2 := congrArg (List.take 7) hfile
    rw [List.take_take, min_eq_left (by omega)] at h2
    rw [h2]
    simp
  have hheader : (((file.drop (bn * 32768)).take (min 32768 (file.length - bn * 32768))).drop
      off).take chunkHeaderSize = [w0, w1, w2, w3, b4, b5, ty] := by
    rw [show chunkHeaderSize = 7 from rfl]
    rw [buf_slice (le_trans (by omega : off + 7 ≤ off + 7 + q.length) hoffm)]
    exact h7
  rw [hheader]
  have hgd4 : ([w0, w1, w2, w3, b4, b5, ty].getD 4 0) = b4 := rfl
  have hgd5 : ([w0, w1, w2, w3, b4, b5, ty].getD 5 0) = b5 := rfl
  have hgd6 : ([w0, w1, w2, w3, b4, b5, ty].getD 6 0) = ty := rfl
  have hgd0 : ([w0, w1, w2, w3, b4, b5, ty].getD 0 0) = w0 := rfl
  have hgd1 : ([w0, w1, w2, w3, b4, b5, ty].getD 1 0) = w1 := rfl
  have hgd2 : ([w0, w1, w2, w3, b4, b5, ty].getD 2 0) = w2 := rfl
  have hgd3 : ([w0, w1, w2, w3, b4, b5, ty].getD 3 0) = w3 := rfl
  rw [hgd4, hgd5, hgd6, hgd0, hgd1, hgd2, hgd3, hlen]
  rw [if_neg ?hg3]
  case hg3 =>
    rw [hbuflen]
    push_cast
    omega
  have hpayload : (((file.drop (bn * 32768)).take (min 32768 (file.length - bn * 32768))).drop
      (((off : Nat) : Int) + 7).toNat).take q.length = q := by
    have ht : (((off : Nat) : Int) + 7).toNat = off + 7 := by omega
    rw [ht, buf_slice (le_trans (le_refl _) hoffm)]
    have h8 : bn * 32768 + (off + 7) = (bn * 32768 + off) + 7 := by omega
    rw [h8]
    have h9 := slice_sub hfile (a := 7) (n := q.length) (by omega)
    rw [h9]
    simp
  have hcheck : (((file.drop (bn * 32768)).take (min 32768 (file.length - bn * 32768))).drop
      (((off : Nat) : Int) + 4).toNat).take (3 + q.length) = b4 :: b5 :: ty :: q := by
    have ht : (((off : Nat) : Int) + 4).toNat = off + 4 := by omega
    rw [ht, buf_slice (by omega)]
    have h8 : bn * 32768 + (off + 4) = (bn * 32768 + off) + 4 := by omega
    rw [h8]
    have h9 := slice_sub hfile (a := 4) (n := 3 + q.length) (by omega)
    rw [h9]
    simp
    omega
  rw [hpayload, hcheck]

/-! ## Frames: lengths and cons forms -/

theorem chunkBody_cons (n t : Nat) (p : List Nat) :
    chunkBody n t p = n % 256 :: n / 256 % 256 :: t :: p := by
  simp [chunkBody, le16]

theorem encChunk_cons (t : Nat) (p : List Nat) :
    encChunk t p =
      crc32 (chunkBody p.length t p) % 256 ::
      crc32 (chunkBody p.length t p) / 256 % 256 ::
      crc32 (chunkBody p.length t p) / 65536 % 256 ::
      crc32 (chunkBody p.length t p) / 16777216 % 256 ::
      p.length % 256 :: p.length / 256 % 256 :: t :: p := by
  simp [encChunk, chunkBody, le32, le16]

theorem encChunk_length (t : Nat) (p : List Nat) : (encChunk t p).length = 7 + p.length := by
  rw [encChunk_cons]
  simp only [List.length_cons]
  omega

theorem framesLen_nil : framesLen [] = 0 := rfl

theorem framesLen_cons (t : Nat) (p : List Nat) (L : List (Nat × List Nat)) :
    framesLen ((t, p) :: L) = (7 + p.length) + framesLen L := by
  simp [framesLen, chunkHeaderSize]

theorem encodeFrames_cons (t : Nat) (p : List Nat) (L : List (Nat × List Nat)) :
    encodeFrames ((t, p) :: L) = encChunk t p ++ encodeFrames L := by
  simp [encodeFrames]

theorem encodeFrames_length (L : List (Nat × List Nat)) :
    (encodeFrames L).length = framesLen L := by
  induction L with
  | nil => rfl
  | cons hd tl ih =>
    obtain ⟨t, p⟩ := hd
    rw [encodeFrames_cons, framesLen_cons, List.length_append, encChunk_length, ih]

theorem chunkBody_bytes {n t : Nat} {p : List Nat} (ht : t < 256)
    (hp : ∀ x ∈ p, x < 256) : ∀ x ∈ chunkBody n t p, x < 256 := by
  rw [chunkBody_cons]
  intro x hx
  simp only [List.mem_cons] at hx
  rcases hx with h | h | h | h
  · subst h; omega
  · subst h; omega
  · subst h; exact ht
  · exact hp x h

/-! ## Reading back a well-formed chunk sequence -/

theorem readGood (L : List (Nat × List Nat)) :
    ∀ (file : List Nat) (bn off : Nat) (acc : List Nat) (fuel : Nat),
    GoodChunks off L →
    (file.drop (bn * 32768 + off)).take (framesLen L) = encodeFrames L →
    (∀ x ∈ (L.map Prod.snd).flatten, x < 256) →
    file.length < U32 →
    L.length < fuel →
    readChunks file fuel bn (off : Int) acc = .ok (acc ++ (L.map Prod.snd).flatten) := by
  induction L with
  | nil =>
    intro file bn off acc fuel hGood _ _ _ _
    exact hGood.elim
  | cons hd rest ih =>
    obtain ⟨t, p⟩ := hd
    intro file bn off acc fuel hGood hfile hbytes hflen hfuel
    obtain ⟨f, rfl⟩ : ∃ f, fuel = f + 1 := by
      cases fuel with
      | zero => simp at hfuel
      | succ f => exact ⟨f, rfl⟩
    have hfit : off + chunkHeaderSize + p.length ≤ blockSize ∨
        off + chunkHeaderSize + p.length = blockSize := by
      cases rest with
      | nil => exact Or.inl hGood.2
      | cons r rs => exact Or.inr hGood.2.1
    have hfit' : off + 7 + p.length ≤ 32768 := by
      rcases hfit with h | h
      · simpa [chunkHeaderSize, blockSize] using h
      · simp only [chunkHeaderSize, blockSize] at h; omega
    have hplen : p.length < 65536 := by omega
    have ht256 : t < 256 := by
      cases rest with
      | nil => rcases hGood.1 with h | h <;> omega
      | cons r rs => rcases hGood.1 with h | h <;> omega
    have hpbytes : ∀ x ∈ p, x < 256 := by
      intro x hx
      exact hbytes x (by simp [hx])
    have hcbytes := chunkBody_bytes (n := p.length) ht256 hpbytes
    have hcrc_lt : crc32 (chunkBody p.length t p) < U32 := crc32_lt hcbytes
    have hchunk : (file.drop (bn * 32768 + off)).take (7 + p.length) = encChunk t p := by
      have h2 := congrArg (List.take (7 + p.length)) hfile
      rw [List.take_take, min_eq_left (by rw [framesLen_cons]; omega)] at h2
      rw [h2, encodeFrames_cons, ← encChunk_length t p, List.take_left]
    rw [encChunk_cons] at hchunk
    have hstep := @readStep _ f _ _ acc _ _ _ _ _ _ _ _ hfit'
      (dec16_le16 hplen) hchunk hflen
    rw [hstep]
    rw [← chunkBody_cons p.length t p]
    rw [dec32_le32_mod, Nat.mod_eq_of_lt hcrc_lt]
    rw [if_neg (show ¬(crc32 (chunkBody p.length t p) ≠ crc32 (chunkBody p.length t p))
      from fun h => h rfl)]
    cases rest with
    | nil =>
      rw [if_pos hGood.1]
      simp
    | cons r rs =>
      have hnot : ¬(t = 0 ∨ t = 3) := by
        rcases hGood.1 with h | h <;> omega
      rw [if_neg hnot]
      have hfill : off + 7 + p.length = 32768 := by
        have := hGood.2.1
        simp only [chunkHeaderSize, blockSize] at this
        omega
      have hAle : bn * 32768 + off + framesLen ((t, p) :: r :: rs) ≤ file.length :=
        slice_length_le hfile (encodeFrames_length _) (by rw [framesLen_cons]; omega)
      have hbn1 : bn + 1 < U32 := by
        have := framesLen_cons t p (r :: rs)
        omega
      have hadd : u32add bn 1 = bn + 1 := u32add_eq (by omega)
      rw [hadd]
      have hfile' : (file.drop ((bn + 1) * 32768 + 0)).take (framesLen (r :: rs)) =
          encodeFrames (r :: rs) := by
        have h9 := slice_sub hfile (a := 7 + p.length) (n := framesLen (r :: rs))
          (le_of_eq (framesLen_cons t p (r :: rs)).symm)
        have h10 : (bn + 1) * 32768 + 0 = bn * 32768 + off + (7 + p.length) := by omega
        rw [h10, h9, encodeFrames_cons, ← encChunk_length t p, List.drop_left,
          ← encodeFrames_length, List.take_length]
      have hbytes' : ∀ x ∈ ((r :: rs).map Prod.snd).flatten, x < 256 := by
        intro x hx
        refine hbytes x ?_
        simp only [List.map_cons, List.flatten_cons] at *
        exact List.mem_append_right _ hx
      have := ih file (bn + 1) 0 (acc ++ p) f hGood.2.2 hfile' hbytes' hflen
        (by simp at hfuel ⊢; omega)
      rw [show ((0 : Nat) : Int) = (0 : Int) from rfl] at this
      rw [this]
      simp

/-! ## Properties of the split description -/

theorem splitAux_nil (f : Nat) (fl : Bool) (off : Nat) :
    splitChunksAux f fl off [] = [] := by
  cases f <;> simp [splitChunksAux]

theorem splitAux_fuel : ∀ (n : Nat) (d : List Nat), d.length ≤ n →
    ∀ (f1 f2 : Nat) (fl : Bool) (off : Nat), d.length ≤ f1 → d.length ≤ f2 →
    off + 7 < blockSize →
    splitChunksAux f1 fl off d = splitChunksAux f2 fl off d := by
  intro n
  induction n with
  | zero =>
    intro d hd f1 f2 fl off _ _ _
    have hnil : d = [] := List.length_eq_zero.mp (by omega)
    subst hnil
    rw [splitAux_nil, splitAux_nil]
  | succ n ihn =>
    intro d hd f1 f2 fl off h1 h2 hoff
    by_cases hdn : d = []
    · subst hdn; rw [splitAux_nil, splitAux_nil]
    · have hdl : 1 ≤ d.length := by
        cases d with
        | nil => exact absurd rfl hdn
        | cons a l => simp
      obtain ⟨a, rfl⟩ : ∃ a, f1 = a + 1 := ⟨f1 - 1, by omega⟩
      obtain ⟨b, rfl⟩ : ∃ b, f2 = b + 1 := ⟨f2 - 1, by omega⟩
      simp only [splitChunksAux, List.isEmpty_iff, if_neg hdn]
      have hc1 : 1 ≤ min (blockSize - off - chunkHeaderSize) d.length := by
        simp only [blockSize, chunkHeaderSize] at *
        omega
      congr 1
      refine ihn (d.drop (min (blockSize - off - chunkHeaderSize) d.length)) ?_ a b false 0 ?_ ?_ ?_
      · simp only [List.length_drop]; omega
      · simp only [List.length_drop]; omega
      · simp only [List.length_drop]; omega
      · simp only [blockSize]; omega

theorem splitAux_types : ∀ (f : Nat) (fl : Bool) (off : Nat) (d : List Nat),
    (splitChunksAux f fl off d).map Prod.fst = chunkTypes f fl off d.length := by
  intro f
  induction f with
  | zero => intro fl off d; rfl
  | succ f ih =>
    intro fl off d
    by_cases hdn : d = []
    · subst hdn; simp [splitChunksAux, chunkTypes]
    · have hdl : d.length ≠ 0 := by
        simpa [List.length_eq_zero] using hdn
      simp only [splitChunksAux, chunkTypes, List.isEmpty_iff, if_neg hdn, if_neg hdl]
      simp only [List.map_cons]
      rw [ih false 0 (d.drop (min (blockSize - off - chunkHeaderSize) d.length))]
      simp [List.length_drop]

theorem splitAux_spec : ∀ (left : Nat) (flag : Bool) (off : Nat) (rest : List Nat),
    rest.length = left → 1 ≤ left → off + 7 < blockSize →
    (flag = true → blockSize - off - 7 < left) →
    GoodChunks off (splitChunksAux left flag off rest) ∧
    ((splitChunksAux left flag off rest).map Prod.snd).flatten = rest ∧
    1 ≤ (splitChunksAux left flag off rest).length ∧
    (splitChunksAux left flag off rest).length ≤ left := by
  intro left
  induction left using Nat.strong_induction_on with
  | _ left ih =>
    intro flag off rest hlen h1 hoff hflag
    obtain ⟨f, rfl⟩ : ∃ f, left = f + 1 := ⟨left - 1, by omega⟩
    have hdn : rest ≠ [] := by
      intro h; subst h; simp at hlen
    have hroom : 1 ≤ blockSize - off - chunkHeaderSize := by
      simp only [blockSize, chunkHeaderSize] at *; omega
    simp only [splitChunksAux, List.isEmpty_iff, if_neg hdn]
    set c := min (blockSize - off - chunkHeaderSize) rest.length with hc
    have hc1 : 1 ≤ c := le_min hroom (by omega)
    have hcle : c ≤ rest.length := min_le_right _ _
    by_cases hfin : c = rest.length
    · -- final chunk: takes the whole remainder
      have hfl : flag = false := by
        cases flag with
        | false => rfl
        | true =>
          exfalso
          have hr := hflag rfl
          have h2 : c ≤ blockSize - off - chunkHeaderSize := min_le_left _ _
          simp only [chunkHeaderSize] at h2
          omega
      subst hfl
      rw [if_neg (by simp), if_pos hfin.symm]
      rw [hfin, List.take_length, List.drop_length, splitAux_nil]
      refine ⟨?_, by simp, by simp, ?_⟩
      · have hfit : off + chunkHeaderSize + rest.length ≤ blockSize := by
          have h2 : c ≤ blockSize - off - chunkHeaderSize := min_le_left _ _
          simp only [chunkHeaderSize, blockSize] at *
          omega
        exact ⟨Or.inr rfl, hfit⟩
      · simp only [List.length_cons, List.length_nil]
        omega
    · -- the chunk fills the block; more chunks follow
      have hclt : c < rest.length := lt_of_le_of_ne hcle hfin
      have hcr : c = blockSize - off - chunkHeaderSize := by
        rcases le_total (blockSize - off - chunkHeaderSize) rest.length with h | h
        · rw [hc, min_eq_left h]
        · exfalso; rw [hc, min_eq_right h] at hclt; omega
      have hdrop_len : (rest.drop c).length = f + 1 - c := by
        rw [List.length_drop, hlen]
      have hrec := ih (f + 1 - c) (by omega) false 0 (rest.drop c)
        hdrop_len (by omega)
        (by simp only [blockSize]; omega) (by intro h; exact absurd h (by simp))
      have hfuel : splitChunksAux f false 0 (rest.drop c) =
          splitChunksAux (f + 1 - c) false 0 (rest.drop c) := by
        refine splitAux_fuel (f + 1) _ ?_ _ _ _ _ ?_ ?_ ?_
        · rw [hdrop_len]; omega
        · rw [hdrop_len]; omega
        · rw [hdrop_len]
        · simp only [blockSize]; omega
      obtain ⟨hg, hflat, hne, hle⟩ := hrec
      rw [hfuel]
      obtain ⟨s0, ss, hss⟩ : ∃ s0 ss,
          splitChunksAux (f + 1 - c) false 0 (rest.drop c) = s0 :: ss := by
        cases hx : splitChunksAux (f + 1 - c) false 0 (rest.drop c) with
        | nil => rw [hx] at hne; simp at hne
        | cons s0 ss => exact ⟨s0, ss, rfl⟩
      rw [hss] at hg hflat hle ⊢
      refine ⟨?_, ?_, by simp, ?_⟩
      · show ((if flag = true then (1:Nat) else if rest.length = c then 3 else 2) = 1 ∨
            (if flag = true then (1:Nat) else if rest.length = c then 3 else 2) = 2) ∧
          off + chunkHeaderSize + (rest.take c).length = blockSize ∧ GoodChunks 0 (s0 :: ss)
        refine ⟨?_, ?_, hg⟩
        · by_cases hfb : flag = true
          · rw [if_pos hfb]; exact Or.inl rfl
          · rw [if_neg hfb, if_neg (fun h => hfin h.symm)]; exact Or.inr rfl
        · rw [List.length_take, min_eq_left (le_of_lt hclt)]
          simp only [chunkHeaderSize, blockSize] at *
          omega
      · have hsplit : (List.map Prod.snd
            (((if flag = true then (1:Nat) else if rest.length = c then 3 else 2),
              rest.take c) :: s0 :: ss)).flatten =
            rest.take c ++ (List.map Prod.snd (s0 :: ss)).flatten := by
          simp
        rw [hsplit, hflat, List.take_append_drop]
      · simp only [List.length_cons] at hle ⊢
        omega

/-! ## The write side: one chunk append and padding -/

theorem writeInternal_eq (seg : Segment) (data : List Nat) (t : Nat)
    (h1 : data.length + 7 < U32) (h2 : seg.currentBlockSize ≤ blockSize)
    (h3 : seg.currentBlockSize + data.length + 7 < U32) :
    seg.writeInternal data t = .ok (
      if seg.currentBlockSize + (data.length + 7) = blockSize then
        { seg with file := seg.file ++ encChunk t data,
                   currentBlockNumber := u32add seg.currentBlockNumber 1,
                   currentBlockSize := 0 }
      else { seg with file := seg.file ++ encChunk t data,
                      currentBlockSize := seg.currentBlockSize + (data.length + 7) }) := by
  have hch : chunkHeaderSize = 7 := rfl
  have hbs : blockSize = 32768 := rfl
  have hds : u32 data.length = data.length := u32_eq (by omega)
  have hadd7 : u32add data.length chunkHeaderSize = data.length + 7 :=
    u32add_eq (show data.length + chunkHeaderSize < U32 by omega)
  have haddc : u32add seg.currentBlockSize (data.length + 7) =
      seg.currentBlockSize + (data.length + 7) := u32add_eq (by omega)
  simp only [Segment.writeInternal, hds, hadd7, haddc, List.take_length]
  rw [if_neg (by omega), if_neg (by omega)]
  by_cases hcond : seg.currentBlockSize + (data.length + 7) = blockSize
  · rw [if_pos hcond, if_pos hcond]; rfl
  · rw [if_neg hcond, if_neg hcond]; rfl

theorem maybePad_of_lt {seg : Segment} (h : seg.currentBlockSize + 7 < blockSize) :
    seg.maybePad = seg := by
  have hadd : u32add seg.currentBlockSize chunkHeaderSize = seg.currentBlockSize + 7 := by
    rw [show chunkHeaderSize = 7 from rfl]
    refine u32add_eq ?_
    simp only [blockSize, U32] at *
    omega
  unfold Segment.maybePad
  rw [hadd, if_neg (by omega)]

theorem maybePad_of_ge {seg : Segment} (h1 : blockSize ≤ seg.currentBlockSize + 7)
    (h2 : seg.currentBlockSize < blockSize) :
    seg.maybePad = { seg with
      file := seg.file ++ List.replicate (blockSize - seg.currentBlockSize) 0,
      currentBlockNumber := u32add seg.currentBlockNumber 1,
      currentBlockSize := 0 } := by
  have hadd : u32add seg.currentBlockSize chunkHeaderSize = seg.currentBlockSize + 7 := by
    rw [show chunkHeaderSize = 7 from rfl]
    refine u32add_eq ?_
    simp only [blockSize, U32] at *
    omega
  have hsub : u32sub blockSize seg.currentBlockSize = blockSize - seg.currentBlockSize := by
    refine u32sub_eq ?_ (le_of_lt h2)
    simp only [blockSize, U32]
    omega
  unfold Segment.maybePad
  rw [hadd, if_pos (by omega), if_pos h2, hsub]

/-- Consolidated description of the padding step from a well-formed state. -/
theorem maybePad_spec {seg : Segment} (hwf : SegWF seg)
    (hbound : seg.file.length + 65536 < U32) :
    SegWF seg.maybePad ∧
    (seg.maybePad.currentBlockSize = 0 ∨ seg.maybePad.currentBlockSize + 7 < blockSize) ∧
    seg.maybePad.id = seg.id ∧ seg.maybePad.closed = seg.closed ∧
    seg.file.length ≤ seg.maybePad.file.length ∧
    seg.maybePad.file.length ≤ seg.file.length + blockSize := by
  obtain ⟨hlen, hcbs⟩ := hwf
  have hbn1 : seg.currentBlockNumber + 1 < U32 := by
    simp only [blockSize] at *
    omega
  by_cases h : seg.currentBlockSize + 7 < blockSize
  · rw [maybePad_of_lt h]
    exact ⟨⟨hlen, hcbs⟩, Or.inr h, rfl, rfl, le_refl _, by omega⟩
  · rw [maybePad_of_ge (by omega) hcbs]
    refine ⟨⟨?_, by simp [blockSize]⟩, Or.inl rfl, rfl, rfl, by simp, ?_⟩
    · simp only [List.length_append, List.length_replicate, hlen,
        u32add_eq hbn1]
      simp only [blockSize] at *
      omega
    · simp only [List.length_append, List.length_replicate]
      omega

theorem splitAux_cons (f : Nat) (fl : Bool) (off : Nat) (d : List Nat) (hd : d ≠ []) :
    splitChunksAux (f + 1) fl off d =
      ((if fl = true then (1 : Nat)
          else if d.length = min (blockSize - off - chunkHeaderSize) d.length then 3 else 2),
        d.take (min (blockSize - off - chunkHeaderSize) d.length)) ::
      splitChunksAux f false 0 (d.drop (min (blockSize - off - chunkHeaderSize) d.length)) := by
  simp only [splitChunksAux, List.isEmpty_iff, if_neg hd]

/-! ## The batch write loop produces exactly the split chunks -/

theorem writeLoop_spec : ∀ (left fuel : Nat) (seg : Segment) (data : List Nat),
    left < fuel → 1 ≤ left → left ≤ data.length → data.length < U32 →
    SegWF seg → seg.currentBlockSize + 7 < blockSize →
    seg.file.length + 8 * left < U32 →
    ∃ seg', Segment.writeLoop data fuel seg left = .ok seg' ∧
      seg'.file = seg.file ++
        encodeFrames (splitChunksAux left (decide (left = data.length))
          seg.currentBlockSize (data.drop (data.length - left))) ∧
      SegWF seg' ∧ seg'.id = seg.id ∧ seg'.closed = seg.closed := by
  intro left
  induction left using Nat.strong_induction_on with
  | _ left ih =>
    intro fuel seg data hfuel h1 hleft hds hwf hinv hbound
    obtain ⟨f, rfl⟩ : ∃ f, fuel = f + 1 := ⟨fuel - 1, by omega⟩
    have hch : chunkHeaderSize = 7 := rfl
    have hbs : blockSize = 32768 := rfl
    have hU : U32 = 4294967296 := rfl
    obtain ⟨hlen, hcbs⟩ := hwf
    have hds' : u32 data.length = data.length := u32_eq hds
    have hsub1 : u32sub blockSize seg.currentBlockSize = blockSize - seg.currentBlockSize :=
      u32sub_eq (by omega) (by omega)
    have hroomeq : u32sub (u32sub blockSize seg.currentBlockSize) chunkHeaderSize =
        blockSize - seg.currentBlockSize - 7 := by
      rw [hsub1]
      exact u32sub_eq (by omega) (by omega)
    set room := blockSize - seg.currentBlockSize - 7 with hroomdef
    have hroom1 : 1 ≤ room := by omega
    set rest := data.drop (data.length - left) with hrestdef
    have hrestlen : rest.length = left := by
      rw [hrestdef, List.length_drop]
      omega
    have hrestne : rest ≠ [] := by
      intro h
      rw [h] at hrestlen
      simp at hrestlen
      omega
    have hsubdl : u32sub data.length left = data.length - left :=
      u32sub_eq (by omega) (by omega)
    set c := min room left with hcdef
    have hc1 : 1 ≤ c := le_min hroom1 h1
    have hcle : c ≤ left := min_le_right _ _
    have hcmin : (if room > left then left else room) = c := by
      rw [hcdef, Nat.min_def]
      split_ifs <;> omega
    have hendIdx0 : u32add (data.length - left) c = data.length - left + c :=
      u32add_eq (by omega)
    have hsrc : (data.take (data.length - left + c)).drop (data.length - left) =
        rest.take c := by
      rw [List.drop_take]
      rw [show data.length - left + c - (data.length - left) = c from by omega]
    have htakelen : (rest.take c).length = c := by
      rw [List.length_take, hrestlen, min_eq_left hcle]
    have hchunk : (rest.take c).take c ++
        List.replicate (c - (rest.take c).length) 0 = rest.take c := by
      rw [htakelen, Nat.sub_self, List.replicate_zero, List.append_nil,
        List.take_take, min_self]
    -- one unfolded step of the loop
    simp only [Segment.writeLoop, if_neg (show ¬ left = 0 by omega), hds', hroomeq,
      hcmin, hsubdl, hendIdx0, if_neg (show ¬ data.length - left + c > data.length by omega),
      hsrc, hchunk]
    have hwin := writeInternal_eq seg (rest.take c)
      (if left = data.length then 1 else if left = c then 3 else 2)
      (by rw [htakelen]; omega) (by omega) (by rw [htakelen]; omega)
    rw [htakelen] at hwin
    rw [hwin]
    -- the split takes the same first chunk
    have hcs : min (blockSize - seg.currentBlockSize - chunkHeaderSize) rest.length = c := by
      rw [hch, hrestlen, ← hroomdef, hcdef]
    obtain ⟨g, rfl⟩ : ∃ g, left = g + 1 := ⟨left - 1, by omega⟩
    rw [splitAux_cons g (decide (g + 1 = data.length)) seg.currentBlockSize rest hrestne]
    rw [hcs]
    have htyeq : ((if decide (g + 1 = data.length) = true then (1 : Nat)
        else if rest.length = c then 3 else 2)) =
        (if g + 1 = data.length then (1 : Nat) else if g + 1 = c then 3 else 2) := by
      rw [hrestlen]
      by_cases hx : g + 1 = data.length
      · rw [if_pos hx, if_pos (by simp [hx])]
      · rw [if_neg hx, if_neg (by simp [hx])]
    rw [htyeq]
    by_cases hfin : c = g + 1
    · -- the chunk consumes the whole remainder: the loop stops next iteration
      have hdropnil : rest.drop c = [] := by
        rw [hfin, ← hrestlen, List.drop_length]
      rw [hdropnil, splitAux_nil]
      have hnofill : seg.currentBlockSize + (c + 7) = blockSize → c = room := by
        intro hx
        omega
      obtain ⟨e, rfl⟩ : ∃ e, f = e + 1 := ⟨f - 1, by omega⟩
      have hzero : g + 1 - c = 0 := by omega
      by_cases hfill : seg.currentBlockSize + (c + 7) = blockSize
      · rw [if_pos hfill]
        refine ⟨{ seg with
            file := seg.file ++ encChunk (if g + 1 = data.length then (1:Nat)
              else if g + 1 = c then 3 else 2) (rest.take c),
            currentBlockNumber := u32add seg.currentBlockNumber 1,
            currentBlockSize := 0 }, ?_, ?_, ?_, rfl, rfl⟩
        · show Segment.writeLoop data (e + 1) _ (g + 1 - c) = _
          rw [hzero]
          simp [Segment.writeLoop]
        · simp [encodeFrames_cons, encodeFrames]
        · constructor
          · have hbn1 : seg.currentBlockNumber + 1 < U32 := by
              simp only [blockSize, chunkHeaderSize, U32] at *
              omega
            simp only [List.length_append, encChunk_length, htakelen, hlen,
              u32add_eq hbn1]
            simp only [blockSize, chunkHeaderSize, U32] at *
            omega
          · simp only [blockSize]
            omega
      · rw [if_neg hfill]
        refine ⟨{ seg with
            file := seg.file ++ encChunk (if g + 1 = data.length then (1:Nat)
              else if g + 1 = c then 3 else 2) (rest.take c),
            currentBlockSize := seg.currentBlockSize + (c + 7) }, ?_, ?_, ?_, rfl, rfl⟩
        · show Segment.writeLoop data (e + 1) _ (g + 1 - c) = _
          rw [hzero]
          simp [Segment.writeLoop]
        · simp [encodeFrames_cons, encodeFrames]
        · constructor
          · simp only [List.length_append, encChunk_length, htakelen, hlen]
            simp only [blockSize, chunkHeaderSize] at *
            omega
          · have hcroom : c ≤ room := min_le_left _ _
            simp only [blockSize, chunkHeaderSize] at *
            omega
    · -- more chunks follow: the block is filled exactly and we recurse
      have hclt : c < g + 1 := lt_of_le_of_ne hcle hfin
      have hcroom : c = room := by
        rcases le_total room (g + 1) with h | h
        · rw [hcdef, min_eq_left h]
        · exfalso
          have hce : c = g + 1 := by rw [hcdef, min_eq_right h]
          omega
      have hfill : seg.currentBlockSize + (c + 7) = blockSize := by
        simp only [blockSize] at *
        omega
      rw [if_pos hfill]
      have hbn1 : seg.currentBlockNumber + 1 < U32 := by
        simp only [blockSize, chunkHeaderSize, U32] at *
        omega
      set seg1 : Segment := { seg with
        file := seg.file ++ encChunk (if g + 1 = data.length then (1:Nat)
          else if g + 1 = c then 3 else 2) (rest.take c),
        currentBlockNumber := u32add seg.currentBlockNumber 1,
        currentBlockSize := 0 } with hseg1
      have hlen1 : seg1.file.length = seg.file.length + (7 + c) := by
        simp only [hseg1, List.length_append, encChunk_length, htakelen]
      have hwf1 : SegWF seg1 := by
        constructor
        · rw [hlen1]
          simp only [hseg1, u32add_eq hbn1, hlen]
          simp only [blockSize, chunkHeaderSize] at *
          omega
        · simp [hseg1, blockSize]
      have hrec := ih (g + 1 - c) (by omega) f seg1 data
        (by omega) (by omega) (by omega) hds hwf1
        (by simp [hseg1, blockSize])
        (by rw [hlen1]; simp only [blockSize, chunkHeaderSize, U32] at *; omega)
      obtain ⟨seg2, hrun, hfile2, hwf2, hid2, hcl2⟩ := hrec
      refine ⟨seg2, hrun, ?_, hwf2, by rw [hid2, hseg1], by rw [hcl2, hseg1]⟩
      have hdec : decide (g + 1 - c = data.length) = false := by
        simp only [decide_eq_false_iff_not]
        omega
      rw [hdec] at hfile2
      have hdrop2 : data.drop (data.length - (g + 1 - c)) = rest.drop c := by
        rw [hrestdef, List.drop_drop]
        rw [show data.length - (g + 1) + c = data.length - (g + 1 - c) from by omega]
      have hcbs1 : seg1.currentBlockSize = 0 := by rw [hseg1]
      rw [hfile2, hdrop2, hcbs1] at *
      have hfuel2 : splitChunksAux (g + 1 - c) false 0 (rest.drop c) =
          splitChunksAux g false 0 (rest.drop c) := by
        refine splitAux_fuel (g + 1) _ ?_ _ _ _ _ ?_ ?_ ?_
        · rw [List.length_drop, hrestlen]; omega
        · rw [List.length_drop, hrestlen]
        · rw [List.length_drop, hrestlen]; omega
        · rw [hbs]; omega
      rw [← hfuel2]
      show seg.file ++ _ ++ _ = _
      rw [encodeFrames_cons, List.append_assoc]

theorem framesLen_structure (L : List (Nat × List Nat)) :
    framesLen L = 7 * L.length + ((L.map Prod.snd).flatten).length := by
  induction L with
  | nil => rfl
  | cons hd tl ih =>
    obtain ⟨t, p⟩ := hd
    rw [framesLen_cons, ih]
    simp only [List.map_cons, List.flatten_cons, List.length_append, List.length_cons]
    omega

/-! ## The master description of `segment.Write` -/

theorem segWrite_spec (seg : Segment) (data : List Nat)
    (hwf : SegWF seg) (hopen : seg.closed = false)
    (hbound : seg.file.length + 8 * data.length + 65536 < U32) :
    ∃ seg', seg.Write data =
      (.ok ⟨seg.maybePad.id, seg.maybePad.currentBlockNumber,
        ((seg.maybePad.currentBlockSize : Nat) : Int)⟩, seg') ∧
      seg'.file = seg.maybePad.file ++ encodeFrames (writeFrameChunks seg data) ∧
      GoodChunks seg.maybePad.currentBlockSize (writeFrameChunks seg data) ∧
      ((writeFrameChunks seg data).map Prod.snd).flatten = data ∧
      framesLen (writeFrameChunks seg data) ≤ 8 * data.length + 7 ∧
      1 ≤ (writeFrameChunks seg data).length ∧
      SegWF seg' ∧ seg'.closed = false ∧ seg'.id = seg.id := by
  have hch : chunkHeaderSize = 7 := rfl
  have hbs : blockSize = 32768 := rfl
  have hU : U32 = 4294967296 := rfl
  obtain ⟨hwf1, hcbs1, hid1, hcl1, hlow, hhigh⟩ := maybePad_spec hwf (by omega)
  have hlen1 := hwf1.1
  have hcbslt1 := hwf1.2
  have hds : data.length < U32 := by omega
  have hds' : u32 data.length = data.length := u32_eq hds
  have hcbs17 : seg.maybePad.currentBlockSize + 7 < blockSize := by
    rcases hcbs1 with h | h
    · rw [h, hbs]; omega
    · exact h
  simp only [Segment.Write, if_neg (show ¬ (seg.closed = true) by simp [hopen]), hds']
  have hin : u32add seg.maybePad.currentBlockSize data.length =
      seg.maybePad.currentBlockSize + data.length := u32add_eq (by omega)
  have haddA : u32add (u32add seg.maybePad.currentBlockSize data.length) chunkHeaderSize =
      seg.maybePad.currentBlockSize + data.length + 7 := by
    rw [hin]
    exact u32add_eq (by omega)
  rw [haddA]
  by_cases hfull : seg.maybePad.currentBlockSize + data.length + 7 ≤ blockSize
  · -- a single FULL chunk
    rw [if_pos hfull]
    have hwfc : writeFrameChunks seg data = [(0, data)] := by
      unfold writeFrameChunks
      rw [if_pos (by rw [hch]; omega)]
    have hwin := writeInternal_eq seg.maybePad data 0 (by omega) (by omega) (by omega)
    rw [hwfc]
    by_cases hfil2 : seg.maybePad.currentBlockSize + (data.length + 7) = blockSize
    · rw [if_pos hfil2] at hwin
      rw [hwin]
      have hbn1 : seg.maybePad.currentBlockNumber + 1 < U32 := by
        simp only [blockSize, chunkHeaderSize, U32] at *
        omega
      refine ⟨_, rfl, ?_, ?_, by simp, ?_, by simp, ?_, by rw [hcl1, hopen], by rw [hid1]⟩
      · show seg.maybePad.file ++ encChunk 0 data = _
        simp [encodeFrames]
      · exact ⟨Or.inl rfl, by rw [hch]; omega⟩
      · rw [framesLen_cons, framesLen_nil]
        omega
      · constructor
        · show (seg.maybePad.file ++ encChunk 0 data).length = u32add seg.maybePad.currentBlockNumber 1 * blockSize + 0
          simp only [List.length_append, encChunk_length, hlen1, u32add_eq hbn1]
          simp only [blockSize] at *
          omega
        · show (0 : Nat) < blockSize
          rw [hbs]; omega
    · rw [if_neg hfil2] at hwin
      rw [hwin]
      refine ⟨_, rfl, ?_, ?_, by simp, ?_, by simp, ?_, by rw [hcl1, hopen], by rw [hid1]⟩
      · show seg.maybePad.file ++ encChunk 0 data = _
        simp [encodeFrames]
      · exact ⟨Or.inl rfl, by rw [hch]; omega⟩
      · rw [framesLen_cons, framesLen_nil]
        omega
      · constructor
        · show (seg.maybePad.file ++ encChunk 0 data).length =
            seg.maybePad.currentBlockNumber * blockSize +
              (seg.maybePad.currentBlockSize + (data.length + 7))
          simp only [List.length_append, encChunk_length, hlen1]
          omega
        · show seg.maybePad.currentBlockSize + (data.length + 7) < blockSize
          simp only [blockSize] at *
          omega
  · -- the batch loop
    rw [if_neg hfull]
    have hds1 : 1 ≤ data.length := by
      simp only [blockSize] at *
      omega
    obtain ⟨seg2, hrun, hfile2, hwf2, hid2, hcl2⟩ :=
      writeLoop_spec data.length (data.length + 1) seg.maybePad data
        (by omega) hds1 (le_refl _) hds hwf1 hcbs17
        (by simp only [blockSize] at *; omega)
    have hdec : decide (data.length = data.length) = true := by simp
    have hsimp2 : splitChunksAux data.length (decide (data.length = data.length))
        seg.maybePad.currentBlockSize (data.drop (data.length - data.length)) =
        splitChunks seg.maybePad.currentBlockSize data := by
      rw [hdec, Nat.sub_self, List.drop_zero]
      rfl
    rw [hsimp2] at hfile2
    have hwfc : writeFrameChunks seg data = splitChunks seg.maybePad.currentBlockSize data := by
      unfold writeFrameChunks
      rw [if_neg (by rw [hch]; omega)]
    obtain ⟨hg, hflat, hne, hle⟩ := splitAux_spec data.length true
      seg.maybePad.currentBlockSize data rfl hds1 hcbs17
      (by intro _; simp only [blockSize, chunkHeaderSize] at *; omega)
    rw [show splitChunksAux data.length true seg.maybePad.currentBlockSize data =
      splitChunks seg.maybePad.currentBlockSize data from rfl] at hg hflat hne hle
    rw [hwfc]
    refine ⟨seg2, by rw [hrun], hfile2, hg, hflat, ?_, hne, hwf2, by rw [hcl2, hcl1, hopen],
      by rw [hid2, hid1]⟩
    rw [framesLen_structure, hflat]
    have := hle
    omega

theorem segWrite_read (seg : Segment) (data : List Nat)
    (hwf : SegWF seg) (hopen : seg.closed = false)
    (hbytes : ∀ b ∈ data, b < 256)
    (hbound : seg.file.length + 8 * data.length + 65536 < U32)
    (pos : ChunkPosition) (hok : (seg.Write data).1 = .ok pos) :
    (seg.Write data).2.Read pos.BlockNumber pos.ChunkOffset = .ok data := by
  have hU : U32 = 4294967296 := rfl
  obtain ⟨seg', heq, hfile, hg, hflat, hfl, hne, hwf', hcl', hid'⟩ :=
    segWrite_spec seg data hwf hopen hbound
  obtain ⟨hwf1, hcbs1, hid1, hcl1, hlow, hhigh⟩ := maybePad_spec hwf (by omega)
  have hlen1 : seg.maybePad.file.length =
      seg.maybePad.currentBlockNumber * 32768 + seg.maybePad.currentBlockSize := hwf1.1
  rw [heq] at hok
  have hpos : pos = ⟨seg.maybePad.id, seg.maybePad.currentBlockNumber,
      ((seg.maybePad.currentBlockSize : Nat) : Int)⟩ := by
    injection hok with h
    exact h.symm
  subst hpos
  have h2 : (seg.Write data).2 = seg' := by rw [heq]
  rw [h2]
  unfold Segment.Read
  rw [if_neg (by simp [hcl'])]
  have hfileL : (seg'.file.drop (seg.maybePad.currentBlockNumber * 32768 +
      seg.maybePad.currentBlockSize)).take (framesLen (writeFrameChunks seg data)) =
      encodeFrames (writeFrameChunks seg data) := by
    rw [hfile, ← hlen1, List.drop_left, ← encodeFrames_length, List.take_length]
  have hflen' : seg'.file.length < U32 := by
    rw [hfile]
    rw [List.length_append, encodeFrames_length]
    simp only [blockSize] at *
    omega
  have hLlen : (writeFrameChunks seg data).length ≤ framesLen (writeFrameChunks seg data) := by
    rw [framesLen_structure]
    omega
  have hframes_le : framesLen (writeFrameChunks seg data) ≤ seg'.file.length := by
    rw [hfile, List.length_append, encodeFrames_length]
    omega
  have := readGood (writeFrameChunks seg data) seg'.file
    seg.maybePad.currentBlockNumber seg.maybePad.currentBlockSize []
    (seg'.file.length + 2) hg hfileL (by rw [hflat]; exact hbytes) hflen' (by omega)
  rw [this, hflat]
  simp

/-! ## WAL-level plumbing -/

theorem openSegmentFile_wf (i : Nat) : SegWF (openSegmentFile i) := by
  constructor <;> simp [openSegmentFile, blockSize, SegWF]

theorem walWrite_unfold (w : WAL) (data : List Nat)
    (hnl : ¬ ((data.length : Int) + (chunkHeaderSize : Int) > w.options.SegmentSize)) :
    w.Write data = (if w.isFull (data.length : Int) then w.rollover else w).writeToActive data := by
  simp only [WAL.Write, if_neg hnl]

theorem writeToActive_spec (w : WAL) (data : List Nat)
    (hwf : SegWF w.activeSegment) (hopen : w.activeSegment.closed = false)
    (hbound : w.activeSegment.file.length + 8 * data.length + 65536 < U32) :
    (w.writeToActive data).1 = .ok ⟨w.activeSegment.maybePad.id,
      w.activeSegment.maybePad.currentBlockNumber,
      ((w.activeSegment.maybePad.currentBlockSize : Nat) : Int)⟩ ∧
    (w.writeToActive data).2.activeSegment = (w.activeSegment.Write data).2 ∧
    (w.writeToActive data).2.olderSegments = w.olderSegments ∧
    (w.writeToActive data).2.options = w.options := by
  obtain ⟨seg', heq, -, -, -, -, -, -, -, -⟩ := segWrite_spec w.activeSegment data hwf hopen hbound
  refine ⟨?_, ?_, ?_, ?_⟩ <;>
    simp only [WAL.writeToActive, heq] <;>
    split <;> rfl

/-- Claim C1: for every payload, if `WAL.Write(payload)` on an open WAL succeeds
and returns position `p`, then a subsequent `WAL.Read(p)` on the same WAL (with
no intervening `Close` or `Delete`) returns exactly that payload, including for
payloads that span multiple blocks and payloads written just after a padded
block tail.  The hypotheses state that the active segment is a well-formed open
segment file (as produced by `Open` and preserved by every write) and that the
write does not push the segment file past the 4 GiB `uint32` range (guaranteed
in the normal regime `SegmentSize < 2^32`; claim C8 covers the wrap-around
defect outside it). -/
theorem claim_C1 (w : WAL) (data : List Nat) (pos : ChunkPosition)
    (hwf : SegWF w.activeSegment) (hopen : w.activeSegment.closed = false)
    (hbytes : ∀ b ∈ data, b < 256)
    (hbound : w.activeSegment.file.length + 8 * data.length + 65536 < U32)
    (hok : (w.Write data).1 = .ok pos) :
    (w.Write data).2.Read pos = .ok data := by
  have hU : U32 = 4294967296 := rfl
  by_cases htl : (data.length : Int) + (chunkHeaderSize : Int) > w.options.SegmentSize
  · exfalso
    simp only [WAL.Write, if_pos htl] at hok
    exact absurd hok (by simp)
  · rw [walWrite_unfold w data htl] at hok ⊢
    set w1 := if w.isFull (data.length : Int) then w.rollover else w with hw1
    have hfacts : SegWF w1.activeSegment ∧ w1.activeSegment.closed = false ∧
        w1.activeSegment.file.length + 8 * data.length + 65536 < U32 := by
      rw [hw1]
      split
      · refine ⟨openSegmentFile_wf _, rfl, ?_⟩
        simp only [WAL.rollover, openSegmentFile, List.length_nil]
        omega
      · exact ⟨hwf, hopen, hbound⟩
    obtain ⟨hwfA, hopenA, hboundA⟩ := hfacts
    obtain ⟨hfst, hact, hold, hopts⟩ := writeToActive_spec w1 data hwfA hopenA hboundA
    obtain ⟨seg', heq, hfile, hg, hflat, hfl, hne, hwfS, hclS, hidS⟩ :=
      segWrite_spec w1.activeSegment data hwfA hopenA hboundA
    obtain ⟨-, -, hidp, -, -, -⟩ := maybePad_spec hwfA (by omega)
    rw [hfst] at hok
    have hpos : pos = ⟨w1.activeSegment.maybePad.id,
        w1.activeSegment.maybePad.currentBlockNumber,
        ((w1.activeSegment.maybePad.currentBlockSize : Nat) : Int)⟩ := by
      injection hok with h
      exact h.symm
    have hact2 : (w1.writeToActive data).2.activeSegment = seg' := by
      rw [hact, heq]
    have hok2 : (w1.activeSegment.Write data).1 =
        .ok ⟨w1.activeSegment.maybePad.id, w1.activeSegment.maybePad.currentBlockNumber,
          ((w1.activeSegment.maybePad.currentBlockSize : Nat) : Int)⟩ := by
      rw [heq]
    have hread := segWrite_read w1.activeSegment data hwfA hopenA hbytes hboundA
      pos (by rw [hok2, hpos])
    rw [heq] at hread
    simp only [WAL.Read, hact2]
    rw [if_pos (by rw [hpos, hidS, hidp])]
    simp only []
    rw [hread]

theorem claim_C1_witness :
    ((⟨openSegmentFile 1, fun _ => none, ⟨1024, false, 0⟩, 0⟩ : WAL).Write [1, 2, 3]).2.Read
      ⟨1, 0, 0⟩ = .ok [1, 2, 3] :=
  claim_C1 ⟨openSegmentFile 1, fun _ => none, ⟨1024, false, 0⟩, 0⟩ [1, 2, 3] ⟨1, 0, 0⟩
    (openSegmentFile_wf 1) rfl (by decide) (by decide) rfl

theorem writeToActive_ne_vtl (w : WAL) (data : List Nat) :
    (w.writeToActive data).1 ≠ .error .valueTooLarge := by
  simp only [WAL.writeToActive]
  rcases hr : (w.activeSegment.Write data).1 with e | p <;> simp

theorem segWrite_pos (seg : Segment) (data : List Nat) (pos : ChunkPosition)
    (h : (seg.Write data).1 = .ok pos) :
    pos = ⟨seg.maybePad.id, seg.maybePad.currentBlockNumber,
      ((seg.maybePad.currentBlockSize : Nat) : Int)⟩ := by
  simp only [Segment.Write] at h
  by_cases hcl : seg.closed = true
  · rw [if_pos hcl] at h
    simp at h
  · rw [if_neg hcl] at h
    split at h
    · rcases hw : seg.maybePad.writeInternal data 0 with e | s2 <;> rw [hw] at h <;>
        simp at h
      exact h.symm
    · rcases hw : Segment.writeLoop data (u32 data.length + 1) seg.maybePad
          (u32 data.length) with e | s2 <;> rw [hw] at h <;> simp at h
      exact h.symm

/-- Claim C4: `WAL.Write(payload)` fails with the ValueTooLarge error if and
only if `len(payload) + 7 > SegmentSize`, and when it fails with this error
the WAL state is returned unchanged, so no data is written. -/
theorem claim_C4 (w : WAL) (data : List Nat) :
    ((w.Write data).1 = .error .valueTooLarge ↔
      (data.length : Int) + (chunkHeaderSize : Int) > w.options.SegmentSize) ∧
    ((data.length : Int) + (chunkHeaderSize : Int) > w.options.SegmentSize →
      (w.Write data).2 = w) := by
  refine ⟨⟨?_, ?_⟩, ?_⟩
  · intro h
    by_contra htl
    rw [walWrite_unfold w data htl] at h
    exact writeToActive_ne_vtl _ _ h
  · intro h
    simp [WAL.Write, if_pos h]
  · intro h
    simp [WAL.Write, if_pos h]

/-- Claim C9: on a closed segment, `Sync` returns success rather than the
Closed error, while `Write` and `Read` return the Closed error; a repeated
`Close` on an already-closed segment returns success and leaves the state
unchanged. -/
theorem claim_C9 (seg : Segment) (data : List Nat) (bn : Nat) (off : Int)
    (h : seg.closed = true) :
    seg.Sync = .ok () ∧
    seg.Write data = (.error .closed, seg) ∧
    seg.Read bn off = .error .closed ∧
    (∀ s : Segment, ((s.Close).2.Close).1 = .ok () ∧ ((s.Close).2.Close).2 = (s.Close).2) := by
  refine ⟨?_, ?_, ?_, ?_⟩
  · simp [Segment.Sync, h]
  · simp [Segment.Write, h]
  · simp [Segment.Read, h]
  · intro s
    unfold Segment.Close
    by_cases hc : s.closed = true <;> simp [hc]

theorem claim_C9_witness :
    (⟨1, [], 0, 0, true⟩ : Segment).Sync = .ok () ∧
    (⟨1, [], 0, 0, true⟩ : Segment).Write [5] = (.error .closed, ⟨1, [], 0, 0, true⟩) ∧
    (⟨1, [], 0, 0, true⟩ : Segment).Read 0 0 = .error .closed ∧
    (∀ s : Segment, ((s.Close).2.Close).1 = .ok () ∧ ((s.Close).2.Close).2 = (s.Close).2) :=
  claim_C9 ⟨1, [], 0, 0, true⟩ [5] 0 0 rfl

/-- Claim C10: when `WAL.Write` returns the ValueTooLarge error, the WAL state
is completely unchanged: no roll-over, no bytes appended to any file, the
active segment's counters and the bytes-written-since-sync counter keep their
prior values. -/
theorem claim_C10 (w : WAL) (data : List Nat)
    (h : (w.Write data).1 = .error .valueTooLarge) :
    (w.Write data).2 = w ∧
    (w.Write data).2.activeSegment = w.activeSegment ∧
    (w.Write data).2.activeSegment.file = w.activeSegment.file ∧
    (w.Write data).2.activeSegment.currentBlockNumber = w.activeSegment.currentBlockNumber ∧
    (w.Write data).2.activeSegment.currentBlockSize = w.activeSegment.currentBlockSize ∧
    (w.Write data).2.bytesWrite = w.bytesWrite ∧
    (w.Write data).2.olderSegments = w.olderSegments := by
  have htl : (data.length : Int) + (chunkHeaderSize : Int) > w.options.SegmentSize := by
    by_contra htl
    rw [walWrite_unfold w data htl] at h
    exact writeToActive_ne_vtl _ _ h
  have h2 : (w.Write data).2 = w := by
    simp [WAL.Write, if_pos htl]
  rw [h2]
  exact ⟨rfl, rfl, rfl, rfl, rfl, rfl, rfl⟩

theorem claim_C10_witness :
    ((⟨openSegmentFile 1, fun _ => none, ⟨8, false, 0⟩, 0⟩ : WAL).Write [1, 2]).2 =
      ⟨openSegmentFile 1, fun _ => none, ⟨8, false, 0⟩, 0⟩ :=
  (claim_C10 ⟨openSegmentFile 1, fun _ => none, ⟨8, false, 0⟩, 0⟩ [1, 2] rfl).1

/-- Claim C3: `WAL.Write` rolls the segment over precisely when
`active.Size() + len(payload) + 7 > SegmentSize` (for payloads passing the
size check): the roll-over fsyncs the active segment (infallible in the
model), resets the bytes-written-since-sync counter to zero, opens a new
segment with id `old + 1` as active and moves the previous active segment
into the older-segments map; when the inequality fails no roll-over occurs. -/
theorem claim_C3 (w : WAL) (data : List Nat)
    (hwf : SegWF w.activeSegment) (hopen : w.activeSegment.closed = false)
    (hbound : w.activeSegment.file.length + 8 * data.length + 65536 < U32)
    (hnl : ¬ ((data.length : Int) + (chunkHeaderSize : Int) > w.options.SegmentSize)) :
    (w.Write data =
      (if w.isFull (data.length : Int) then w.rollover else w).writeToActive data) ∧
    (w.isFull (data.length : Int) = true ↔
      w.activeSegment.Size + (data.length : Int) + (chunkHeaderSize : Int) >
        w.options.SegmentSize) ∧
    w.rollover.bytesWrite = 0 ∧
    w.rollover.activeSegment = openSegmentFile (u32add w.activeSegment.id 1) ∧
    w.rollover.olderSegments w.activeSegment.id = some w.activeSegment ∧
    (∀ i, i ≠ w.activeSegment.id → w.rollover.olderSegments i = w.olderSegments i) ∧
    (w.isFull (data.length : Int) = false →
      (w.Write data).2.activeSegment.id = w.activeSegment.id ∧
      (w.Write data).2.olderSegments = w.olderSegments) := by
  refine ⟨walWrite_unfold w data hnl, ?_, rfl, rfl, ?_, ?_, ?_⟩
  · simp [WAL.isFull]
  · simp [WAL.rollover]
  · intro i hi
    simp [WAL.rollover, if_neg hi]
  · intro hnotfull
    obtain ⟨hfst, hact, hold, hopts⟩ := writeToActive_spec w data hwf hopen hbound
    obtain ⟨seg', heq, -, -, -, -, -, -, -, hidS⟩ :=
      segWrite_spec w.activeSegment data hwf hopen hbound
    have hw : w.Write data = w.writeToActive data := by
      rw [walWrite_unfold w data hnl, hnotfull]
      simp
    rw [hw]
    refine ⟨?_, hold⟩
    rw [hact, heq]
    exact hidS

set_option maxRecDepth 100000 in
theorem claim_C3_witness :
    (⟨⟨1, List.replicate 1020 0, 0, 1020, false⟩, fun _ => none, ⟨1024, false, 0⟩, 0⟩ :
        WAL).Write [1, 2] =
      (if (⟨⟨1, List.replicate 1020 0, 0, 1020, false⟩, fun _ => none, ⟨1024, false, 0⟩, 0⟩ :
          WAL).isFull (([1, 2].length : Nat) : Int) then
        (⟨⟨1, List.replicate 1020 0, 0, 1020, false⟩, fun _ => none, ⟨1024, false, 0⟩, 0⟩ :
          WAL).rollover
      else ⟨⟨1, List.replicate 1020 0, 0, 1020, false⟩, fun _ => none, ⟨1024, false, 0⟩,
        0⟩).writeToActive [1, 2] :=
  (claim_C3 ⟨⟨1, List.replicate 1020 0, 0, 1020, false⟩, fun _ => none, ⟨1024, false, 0⟩, 0⟩
    [1, 2]
    (by constructor
        · show (List.replicate 1020 (0 : Nat)).length = 0 * blockSize + 1020
          rw [List.length_replicate]
          simp only [blockSize]
        · show (1020 : Nat) < blockSize
          simp only [blockSize]
          omega)
    rfl
    (by show (List.replicate 1020 (0 : Nat)).length + 8 * [1, 2].length + 65536 < U32
        rw [List.length_replicate]
        simp only [U32, List.length_cons, List.length_nil]
        omega)
    (by decide)).1

/-- Claim C5: if at the start of a segment write the remaining space in the
current block cannot hold a chunk header (`currentBlockSize + 7 ≥ blockSize`),
the writer appends zero bytes from `currentBlockSize` up to the block boundary
and advances to the next block (`currentBlockNumber + 1`, `currentBlockSize = 0`)
before writing any chunk; consequently a write issued in such a state (for
example with exactly a 3-byte tail remaining) starts at the next block with
chunk offset 0. -/
theorem claim_C5 (seg : Segment) (data : List Nat)
    (hcbs : seg.currentBlockSize < blockSize)
    (hge : blockSize ≤ seg.currentBlockSize + 7) :
    seg.maybePad.file = seg.file ++ List.replicate (blockSize - seg.currentBlockSize) 0 ∧
    seg.maybePad.currentBlockNumber = u32add seg.currentBlockNumber 1 ∧
    seg.maybePad.currentBlockSize = 0 ∧
    ∀ pos seg', seg.Write data = (.ok pos, seg') →
      pos.BlockNumber = u32add seg.currentBlockNumber 1 ∧ pos.ChunkOffset = 0 := by
  have h := maybePad_of_ge hge hcbs
  refine ⟨by rw [h], by rw [h], by rw [h], ?_⟩
  intro pos seg' hw
  have hp := segWrite_pos seg data pos (by rw [hw])
  rw [hp]
  constructor
  · show seg.maybePad.currentBlockNumber = u32add seg.currentBlockNumber 1
    rw [h]
  · show ((seg.maybePad.currentBlockSize : Nat) : Int) = 0
    rw [h]
    rfl

theorem claim_C5_witness :
    (⟨1, List.replicate 32765 (0 : Nat), 0, 32765, false⟩ : Segment).maybePad.file =
        List.replicate 32765 (0 : Nat) ++
          List.replicate (blockSize - 32765) 0 ∧
      (⟨1, List.replicate 32765 (0 : Nat), 0, 32765, false⟩ :
          Segment).maybePad.currentBlockNumber = u32add 0 1 ∧
      (⟨1, List.replicate 32765 (0 : Nat), 0, 32765, false⟩ :
          Segment).maybePad.currentBlockSize = 0 :=
  have h := claim_C5 ⟨1, List.replicate 32765 (0 : Nat), 0, 32765, false⟩ []
    (by decide) (by decide)
  ⟨h.1, h.2.1, h.2.2.1⟩

theorem chunkTypes_zero_len (f : Nat) (fl : Bool) (off : Nat) :
    chunkTypes f fl off 0 = [] := by
  cases f <;> simp [chunkTypes]

theorem chunkTypes_eval (f : Nat) (fl : Bool) (off len : Nat)
    (h0 : ¬ len = 0) (hf : 1 ≤ f) :
    chunkTypes f fl off len =
      ((if fl then 1 else
          if len = min (blockSize - off - chunkHeaderSize) len then 3 else 2) : Nat) ::
        chunkTypes (f - 1) false 0 (len - min (blockSize - off - chunkHeaderSize) len) := by
  obtain ⟨g, rfl⟩ : ∃ g, f = g + 1 := ⟨f - 1, by omega⟩
  simp only [chunkTypes, if_neg h0, Nat.add_sub_cancel]

/-- Claim C6: a payload that does not fit in the current block as a single
FULL chunk is split into consecutive chunks, each taking
`min(remaining, blockSize − currentBlockSize − 7)` payload bytes (the rule
embodied by `splitChunks`), typed FIRST on the first iteration, LAST on the
iteration where the remaining bytes equal the amount taken and MIDDLE
otherwise (the rule embodied by `chunkTypes`); in particular a payload of
`3·blockSize + 100` bytes is written as FIRST, MIDDLE, MIDDLE, LAST and a
payload of `blockSize + 100` bytes as FIRST then LAST. -/
theorem claim_C6 (seg : Segment) (data : List Nat)
    (hwf : SegWF seg) (hopen : seg.closed = false)
    (hbound : seg.file.length + 8 * data.length + 65536 < U32)
    (hnopad : seg.currentBlockSize + 7 < blockSize)
    (hnofit : blockSize < seg.currentBlockSize + data.length + 7) :
    (seg.Write data).2.file =
      seg.file ++ encodeFrames (splitChunks seg.currentBlockSize data) ∧
    ((splitChunks seg.currentBlockSize data).map Prod.snd).flatten = data ∧
    (splitChunks seg.currentBlockSize data).map Prod.fst =
      chunkTypes data.length true seg.currentBlockSize data.length ∧
    GoodChunks seg.currentBlockSize (splitChunks seg.currentBlockSize data) ∧
    (∀ d : List Nat, d.length = 3 * blockSize + 100 →
      (splitChunks 0 d).map Prod.fst = [1, 2, 2, 3]) ∧
    (∀ d : List Nat, d.length = blockSize + 100 →
      (splitChunks 0 d).map Prod.fst = [1, 3]) := by
  have hmp := maybePad_of_lt hnopad
  have hwfc : writeFrameChunks seg data = splitChunks seg.currentBlockSize data := by
    unfold writeFrameChunks
    rw [hmp, if_neg (by rw [show chunkHeaderSize = 7 from rfl]; omega)]
  obtain ⟨seg', heq, hfile, hgood, hflat, -, -, -, -, -⟩ :=
    segWrite_spec seg data hwf hopen hbound
  rw [hwfc] at hgood hflat
  rw [hmp] at hgood
  refine ⟨?_, hflat, splitAux_types data.length true seg.currentBlockSize data,
    hgood, ?_, ?_⟩
  · rw [heq]
    show seg'.file = _
    rw [hfile, hwfc, hmp]
  · intro d hd
    rw [show (splitChunks 0 d).map Prod.fst = chunkTypes d.length true 0 d.length from
      splitAux_types d.length true 0 d, hd]
    show chunkTypes 98404 true 0 98404 = [1, 2, 2, 3]
    rw [chunkTypes_eval 98404 true 0 98404 (by norm_num) (by norm_num)]
    norm_num [blockSize, chunkHeaderSize]
    rw [chunkTypes_eval 98403 false 0 65643 (by norm_num) (by norm_num)]
    norm_num [blockSize, chunkHeaderSize]
    rw [chunkTypes_eval 98402 false 0 32882 (by norm_num) (by norm_num)]
    norm_num [blockSize, chunkHeaderSize]
    rw [chunkTypes_eval 98401 false 0 121 (by norm_num) (by norm_num)]
    norm_num [blockSize, chunkHeaderSize]
    exact chunkTypes_zero_len 98400 false 0
  · intro d hd
    rw [show (splitChunks 0 d).map Prod.fst = chunkTypes d.length true 0 d.length from
      splitAux_types d.length true 0 d, hd]
    show chunkTypes 32868 true 0 32868 = [1, 3]
    rw [chunkTypes_eval 32868 true 0 32868 (by norm_num) (by norm_num)]
    norm_num [blockSize, chunkHeaderSize]
    rw [chunkTypes_eval 32867 false 0 107 (by norm_num) (by norm_num)]
    norm_num [blockSize, chunkHeaderSize]
    exact chunkTypes_zero_len 32866 false 0

theorem claim_C6_witness :
    (splitChunks (openSegmentFile 1).currentBlockSize
        (List.replicate 32762 (0 : Nat))).map Prod.fst =
      chunkTypes (List.replicate 32762 (0 : Nat)).length true
        (openSegmentFile 1).currentBlockSize (List.replicate 32762 (0 : Nat)).length :=
  (claim_C6 (openSegmentFile 1) (List.replicate 32762 (0 : Nat))
    (openSegmentFile_wf 1) rfl
    (by rw [List.length_replicate]
        decide)
    (by decide)
    (by rw [List.length_replicate]
        decide)).2.2.1


/-- Counterexample to claim C7 as stated: a single FULL chunk of 32758 bytes
written into a fresh segment completes with `currentBlockSize = 32765`, which
is neither 0 nor small enough to leave room for another chunk header
(`32765 + 7 = 32772 ≥ 32768`).  The writer only pads *before* a write, so a
completed write may leave a tail of fewer than 7 bytes in the current block. -/
theorem claim_C7_counterexample :
    ¬ (((openSegmentFile 1).Write (List.replicate 32758 (0 : Nat))).2.currentBlockSize = 0 ∨
      ((openSegmentFile 1).Write (List.replicate 32758 (0 : Nat))).2.currentBlockSize + 7 <
        blockSize) := by
  have hlen : (List.replicate 32758 (0 : Nat)).length = 32758 := List.length_replicate _ _
  have hmp : (openSegmentFile 1).maybePad = openSegmentFile 1 := maybePad_of_lt (by decide)
  have hwi := writeInternal_eq (openSegmentFile 1) (List.replicate 32758 (0 : Nat)) 0
    (by rw [hlen]; decide) (by decide) (by rw [hlen]; decide)
  rw [if_neg (by rw [hlen]; decide)] at hwi
  have key : ((openSegmentFile 1).Write
      (List.replicate 32758 (0 : Nat))).2.currentBlockSize = 32765 := by
    have hds : u32 (List.replicate 32758 (0 : Nat)).length = 32758 := by rw [hlen]; decide
    simp only [Segment.Write]
    rw [if_neg (show ¬ (openSegmentFile 1).closed = true from by decide)]
    rw [hmp, hds]
    rw [if_pos (show u32add (u32add (openSegmentFile 1).currentBlockSize 32758)
      chunkHeaderSize ≤ blockSize from by decide)]
    rw [hwi, hlen]
    rfl
  rw [key]
  decide

/-- Claim C7, amended: the invariant
`currentBlockSize = 0 ∨ currentBlockSize + 7 < blockSize` holds after the
padding step of every write, and every completed write leaves
`currentBlockSize < blockSize`; but a completed write may leave
`0 < currentBlockSize` with `currentBlockSize + 7 ≥ blockSize` (see the
counterexample), the short tail being padded only at the start of the next
write. -/
theorem claim_C7 (seg : Segment) (data : List Nat)
    (hwf : SegWF seg) (hopen : seg.closed = false)
    (hbound : seg.file.length + 8 * data.length + 65536 < U32) :
    (seg.maybePad.currentBlockSize = 0 ∨ seg.maybePad.currentBlockSize + 7 < blockSize) ∧
    ∀ pos seg', seg.Write data = (.ok pos, seg') → seg'.currentBlockSize < blockSize := by
  obtain ⟨hwf1, hcbs1, -, -, -, -⟩ := maybePad_spec hwf (by omega)
  refine ⟨hcbs1, ?_⟩
  intro pos seg' hw
  obtain ⟨seg2, heq, -, -, -, -, -, hwfs, -, -⟩ := segWrite_spec seg data hwf hopen hbound
  have hss : seg' = seg2 := by
    rw [hw] at heq
    exact congrArg Prod.snd heq
  rw [hss]
  exact hwfs.2

theorem claim_C7_witness :
    (openSegmentFile 1).maybePad.currentBlockSize = 0 ∨
      (openSegmentFile 1).maybePad.currentBlockSize + 7 < blockSize :=
  (claim_C7 (openSegmentFile 1) [1, 2, 3] (openSegmentFile_wf 1) rfl (by decide)).1

/-- Claim C8: the segment byte arithmetic wraps in 32-bit unsigned
arithmetic before widening: `segment.Size` returns
`(currentBlockNumber·32768 + currentBlockSize) mod 2^32` and `segment.Read`
computes a block's file offset as `(blockNumber·32768) mod 2^32`, so whenever
`blockNumber ≥ 2^17` (true size at least 4 GiB) both results differ from the
unwrapped 64-bit values and `Read` addresses the wrong offset. -/
theorem claim_C8 (seg : Segment) (bn : Nat) :
    seg.Size =
      (((seg.currentBlockNumber * blockSize + seg.currentBlockSize) % 2 ^ 32 : Nat) : Int) ∧
    readBlockOffset bn = ((bn * blockSize % 2 ^ 32 : Nat) : Int) ∧
    (2 ^ 17 ≤ bn → readBlockOffset bn ≠ ((bn * blockSize : Nat) : Int)) ∧
    (2 ^ 17 ≤ seg.currentBlockNumber →
      seg.Size ≠
        ((seg.currentBlockNumber * blockSize + seg.currentBlockSize : Nat) : Int)) := by
  have hU : U32 = 2 ^ 32 := U32_eq_pow
  have hbs : blockSize = 32768 := rfl
  have hsize : seg.Size =
      (((seg.currentBlockNumber * blockSize + seg.currentBlockSize) % 2 ^ 32 : Nat) : Int) := by
    simp only [Segment.Size, u32add, u32mul, hU, Nat.mod_add_mod]
  have hoff : readBlockOffset bn = ((bn * blockSize % 2 ^ 32 : Nat) : Int) := by
    simp only [readBlockOffset, u32mul, hU]
  refine ⟨hsize, hoff, ?_, ?_⟩
  · intro hbn
    rw [hoff]
    intro h
    have h' : bn * blockSize % 2 ^ 32 = bn * blockSize := by exact_mod_cast h
    have hge : 2 ^ 32 ≤ bn * blockSize := by
      calc 2 ^ 32 = 2 ^ 17 * 32768 := by norm_num
      _ ≤ bn * 32768 := Nat.mul_le_mul_right _ hbn
      _ = bn * blockSize := by rw [hbs]
    have hlt : bn * blockSize % 2 ^ 32 < 2 ^ 32 := Nat.mod_lt _ (by norm_num)
    omega
  · intro hbn
    rw [hsize]
    intro h
    have h' : (seg.currentBlockNumber * blockSize + seg.currentBlockSize) % 2 ^ 32 =
        seg.currentBlockNumber * blockSize + seg.currentBlockSize := by exact_mod_cast h
    have hge : 2 ^ 32 ≤ seg.currentBlockNumber * blockSize := by
      calc 2 ^ 32 = 2 ^ 17 * 32768 := by norm_num
      _ ≤ seg.currentBlockNumber * 32768 := Nat.mul_le_mul_right _ hbn
      _ = seg.currentBlockNumber * blockSize := by rw [hbs]
    have hlt : (seg.currentBlockNumber * blockSize + seg.currentBlockSize) % 2 ^ 32 < 2 ^ 32 :=
      Nat.mod_lt _ (by norm_num)
    omega

theorem claim_C8_witness :
    2 ^ 17 ≤ 2 ^ 17 ∧
      readBlockOffset (2 ^ 17) ≠ ((2 ^ 17 * blockSize : Nat) : Int) :=
  ⟨le_refl _, (claim_C8 (openSegmentFile 1) (2 ^ 17)).2.2.1 (le_refl _)⟩

/-- One read-loop iteration over a framed chunk whose bytes have been
corrupted by a single bit flip at frame offset `r` (not one of the two
length bytes, positions 4 and 5): the CRC comparison fails. -/
theorem readStepFlip {file : List Nat} {fuel bn off : Nat} {acc : List Nat}
    {w0 w1 w2 w3 b4 b5 ty : Nat} {q : List Nat} {r k : Nat}
    (hfits : off + 7 + q.length ≤ 32768)
    (hlen : dec16 b4 b5 = q.length)
    (hfile : (file.drop (bn * 32768 + off)).take (7 + q.length) =
      w0 :: w1 :: w2 :: w3 :: b4 :: b5 :: ty :: q)
    (hflen : file.length < U32)
    (hw0 : w0 < 256) (hw1 : w1 < 256) (hw2 : w2 < 256) (hw3 : w3 < 256)
    (hb4 : b4 < 256) (hb5 : b5 < 256) (hty : ty < 256)
    (hq : ∀ x ∈ q, x < 256)
    (hsum : dec32 w0 w1 w2 w3 = crc32 (b4 :: b5 :: ty :: q))
    (hr : r < 7 + q.length) (hr4 : r ≠ 4) (hr5 : r ≠ 5) (hk : k < 8) :
    readChunks (flipBitAt file (bn * 32768 + off + r) k) (fuel + 1) bn (off : Int) acc =
      .error .invalidCRC := by
  have hws : (w0 :: w1 :: w2 :: w3 :: b4 :: b5 :: ty :: q).length = 7 + q.length := by
    simp only [List.length_cons]; omega
  have hA : bn * 32768 + off + (7 + q.length) ≤ file.length :=
    slice_length_le hfile hws (by omega)
  have hgetD : file.getD (bn * 32768 + off + r) 0 =
      (w0 :: w1 :: w2 :: w3 :: b4 :: b5 :: ty :: q).getD r 0 :=
    getD_of_slice hfile hA hr
  have h2k : 2 ^ k < 256 := by
    calc 2 ^ k < 2 ^ 8 := Nat.pow_lt_pow_right (by norm_num) hk
    _ = 256 := by norm_num
  have hxor : ∀ b : Nat, b < 256 → b ^^^ 2 ^ k < 256 := by
    intro b hb
    have : b ^^^ 2 ^ k < 2 ^ 8 :=
      Nat.xor_lt_two_pow (by norm_num; omega) (by norm_num; omega)
    omega
  rcases Nat.lt_or_ge r 7 with hlt | hge
  · interval_cases r
    · simp only [flipBitAt]
      rw [hgetD, show (w0 :: w1 :: w2 :: w3 :: b4 :: b5 :: ty :: q).getD 0 0 = w0 from rfl]
      have hsl : ((file.set (bn * 32768 + off + 0) (w0 ^^^ 2 ^ k)).drop
          (bn * 32768 + off)).take (7 + q.length) =
          (w0 ^^^ 2 ^ k) :: w1 :: w2 :: w3 :: b4 :: b5 :: ty :: q := by
        rw [slice_set_inside (by omega) (by omega), hfile,
          show bn * 32768 + off + 0 - (bn * 32768 + off) = 0 from by omega]
        rfl
      rw [@readStep _ fuel _ _ acc _ _ _ _ _ _ _ _ hfits hlen hsl
        (by rw [List.length_set]; exact hflen)]
      rw [if_pos ?hn0]
      case hn0 =>
        rw [← hsum]
        intro h
        obtain ⟨h0, -, -, -⟩ := dec32_inj (hxor w0 hw0) hw1 hw2 hw3 hw0 hw1 hw2 hw3 h
        exact xor_flip_ne w0 k h0
    · simp only [flipBitAt]
      rw [hgetD, show (w0 :: w1 :: w2 :: w3 :: b4 :: b5 :: ty :: q).getD 1 0 = w1 from rfl]
      have hsl : ((file.set (bn * 32768 + off + 1) (w1 ^^^ 2 ^ k)).drop
          (bn * 32768 + off)).take (7 + q.length) =
          w0 :: (w1 ^^^ 2 ^ k) :: w2 :: w3 :: b4 :: b5 :: ty :: q := by
        rw [slice_set_inside (by omega) (by omega), hfile,
          show bn * 32768 + off + 1 - (bn * 32768 + off) = 1 from by omega]
        rfl
      rw [@readStep _ fuel _ _ acc _ _ _ _ _ _ _ _ hfits hlen hsl
        (by rw [List.length_set]; exact hflen)]
      rw [if_pos ?hn1]
      case hn1 =>
        rw [← hsum]
        intro h
        obtain ⟨-, h1, -, -⟩ := dec32_inj hw0 (hxor w1 hw1) hw2 hw3 hw0 hw1 hw2 hw3 h
        exact xor_flip_ne w1 k h1
    · simp only [flipBitAt]
      rw [hgetD, show (w0 :: w1 :: w2 :: w3 :: b4 :: b5 :: ty :: q).getD 2 0 = w2 from rfl]
      have hsl : ((file.set (bn * 32768 + off + 2) (w2 ^^^ 2 ^ k)).drop
          (bn * 32768 + off)).take (7 + q.length) =
          w0 :: w1 :: (w2 ^^^ 2 ^ k) :: w3 :: b4 :: b5 :: ty :: q := by
        rw [slice_set_inside (by omega) (by omega), hfile,
          show bn * 32768 + off + 2 - (bn * 32768 + off) = 2 from by omega]
        rfl
      rw [@readStep _ fuel _ _ acc _ _ _ _ _ _ _ _ hfits hlen hsl
        (by rw [List.length_set]; exact hflen)]
      rw [if_pos ?hn2]
      case hn2 =>
        rw [← hsum]
        intro h
        obtain ⟨-, -, h2, -⟩ := dec32_inj hw0 hw1 (hxor w2 hw2) hw3 hw0 hw1 hw2 hw3 h
        exact xor_flip_ne w2 k h2
    · simp only [flipBitAt]
      rw [hgetD, show (w0 :: w1 :: w2 :: w3 :: b4 :: b5 :: ty :: q).getD 3 0 = w3 from rfl]
      have hsl : ((file.set (bn * 32768 + off + 3) (w3 ^^^ 2 ^ k)).drop
          (bn * 32768 + off)).take (7 + q.length) =
          w0 :: w1 :: w2 :: (w3 ^^^ 2 ^ k) :: b4 :: b5 :: ty :: q := by
        rw [slice_set_inside (by omega) (by omega), hfile,
          show bn * 32768 + off + 3 - (bn * 32768 + off) = 3 from by omega]
        rfl
      rw [@readStep _ fuel _ _ acc _ _ _ _ _ _ _ _ hfits hlen hsl
        (by rw [List.length_set]; exact hflen)]
      rw [if_pos ?hn3]
      case hn3 =>
        rw [← hsum]
        intro h
        obtain ⟨-, -, -, h3⟩ := dec32_inj hw0 hw1 hw2 (hxor w3 hw3) hw0 hw1 hw2 hw3 h
        exact xor_flip_ne w3 k h3
    · omega
    · omega
    · simp only [flipBitAt]
      rw [hgetD, show (w0 :: w1 :: w2 :: w3 :: b4 :: b5 :: ty :: q).getD 6 0 = ty from rfl]
      have hsl : ((file.set (bn * 32768 + off + 6) (ty ^^^ 2 ^ k)).drop
          (bn * 32768 + off)).take (7 + q.length) =
          w0 :: w1 :: w2 :: w3 :: b4 :: b5 :: (ty ^^^ 2 ^ k) :: q := by
        rw [slice_set_inside (by omega) (by omega), hfile,
          show bn * 32768 + off + 6 - (bn * 32768 + off) = 6 from by omega]
        rfl
      rw [@readStep _ fuel _ _ acc _ _ _ _ _ _ _ _ hfits hlen hsl
        (by rw [List.length_set]; exact hflen)]
      rw [if_pos ?hn6]
      case hn6 =>
        rw [hsum]
        have h := @crc32_flip_ne [b4, b5] q ty (ty ^^^ 2 ^ k)
          (by intro x hx; simp only [List.mem_cons, List.not_mem_nil, or_false] at hx
              rcases hx with h | h <;> omega)
          hq hty (hxor ty hty) (Ne.symm (xor_flip_ne ty k))
        simpa using h
  · obtain ⟨j, rfl⟩ : ∃ j, r = j + 7 := ⟨r - 7, by omega⟩
    have hj : j < q.length := by omega
    simp only [flipBitAt]
    rw [hgetD,
      show (w0 :: w1 :: w2 :: w3 :: b4 :: b5 :: ty :: q).getD (j + 7) 0 = q.getD j 0 from rfl]
    have hql : (q.set j (q.getD j 0 ^^^ 2 ^ k)).length = q.length := List.length_set q _ _
    have hsl : ((file.set (bn * 32768 + off + (j + 7)) (q.getD j 0 ^^^ 2 ^ k)).drop
        (bn * 32768 + off)).take (7 + q.length) =
        w0 :: w1 :: w2 :: w3 :: b4 :: b5 :: ty :: q.set j (q.getD j 0 ^^^ 2 ^ k) := by
      rw [slice_set_inside (by omega) (by omega), hfile,
        show bn * 32768 + off + (j + 7) - (bn * 32768 + off) = j + 7 from by omega]
      rfl
    rw [@readStep _ fuel _ _ acc _ _ _ _ _ _ _ (q.set j (q.getD j 0 ^^^ 2 ^ k))
      (by rw [hql]; exact hfits) (by rw [hql]; exact hlen) (by rw [hql]; exact hsl)
      (by rw [List.length_set]; exact hflen)]
    rw [if_pos ?hnp]
    case hnp =>
      rw [hsum]
      have hqd : q = q.take j ++ q.getD j 0 :: q.drop (j + 1) := by
        rw [List.getD_eq_getElem q 0 hj]
        conv_lhs => rw [← List.take_append_drop j q]
        rw [List.drop_eq_getElem_cons hj]
      have hsd : q.set j (q.getD j 0 ^^^ 2 ^ k) =
          q.take j ++ (q.getD j 0 ^^^ 2 ^ k) :: q.drop (j + 1) := by
        rw [List.set_eq_take_cons_drop _ hj]
      have hb : q.getD j 0 < 256 := by
        rw [List.getD_eq_getElem q 0 hj]
        exact hq _ (List.getElem_mem hj)
      have h := @crc32_flip_ne (b4 :: b5 :: ty :: q.take j) (q.drop (j + 1))
        (q.getD j 0) (q.getD j 0 ^^^ 2 ^ k)
        (by intro x hx
            simp only [List.mem_cons] at hx
            rcases hx with h | h | h | h
            · omega
            · omega
            · omega
            · exact hq x (List.take_subset j q h))
        (fun x hx => hq x (List.drop_subset _ q hx))
        hb (hxor _ hb) (Ne.symm (xor_flip_ne _ k))
      simp only [List.cons_append] at h
      rw [← hqd, ← hsd] at h
      exact h

/-- Reading a well-formed chunk sequence whose on-disk bytes have been
corrupted by a single bit flip at offset `r` into the concatenated frames
(not addressing a length byte) fails with the invalid-CRC error. -/
theorem readGoodFlip (L : List (Nat × List Nat)) :
    ∀ (file : List Nat) (bn off : Nat) (acc : List Nat) (fuel : Nat) (r k : Nat),
    GoodChunks off L →
    (file.drop (bn * 32768 + off)).take (framesLen L) = encodeFrames L →
    (∀ x ∈ (L.map Prod.snd).flatten, x < 256) →
    file.length < U32 →
    L.length < fuel →
    r < framesLen L →
    isLenByte L r = false →
    k < 8 →
    readChunks (flipBitAt file (bn * 32768 + off + r) k) fuel bn (off : Int) acc =
      .error .invalidCRC := by
  induction L with
  | nil =>
    intro file bn off acc fuel r k hGood _ _ _ _ _ _ _
    exact hGood.elim
  | cons hd rest ih =>
    obtain ⟨t, p⟩ := hd
    intro file bn off acc fuel r k hGood hfile hbytes hflen hfuel hr hlb hk
    obtain ⟨f, rfl⟩ : ∃ f, fuel = f + 1 := by
      cases fuel with
      | zero => simp at hfuel
      | succ f => exact ⟨f, rfl⟩
    have hfit : off + chunkHeaderSize + p.length ≤ blockSize ∨
        off + chunkHeaderSize + p.length = blockSize := by
      cases rest with
      | nil => exact Or.inl hGood.2
      | cons r0 rs => exact Or.inr hGood.2.1
    have hfit' : off + 7 + p.length ≤ 32768 := by
      rcases hfit with h | h
      · simpa [chunkHeaderSize, blockSize] using h
      · simp only [chunkHeaderSize, blockSize] at h; omega
    have hplen : p.length < 65536 := by omega
    have ht256 : t < 256 := by
      cases rest with
      | nil => rcases hGood.1 with h | h <;> omega
      | cons r0 rs => rcases hGood.1 with h | h <;> omega
    have hpbytes : ∀ x ∈ p, x < 256 := by
      intro x hx
      exact hbytes x (by simp [hx])
    have hcbytes := chunkBody_bytes (n := p.length) ht256 hpbytes
    have hcrc_lt : crc32 (chunkBody p.length t p) < U32 := crc32_lt hcbytes
    have hchunk : (file.drop (bn * 32768 + off)).take (7 + p.length) = encChunk t p := by
      have h2 := congrArg (List.take (7 + p.length)) hfile
      rw [List.take_take, min_eq_left (by rw [framesLen_cons]; omega)] at h2
      rw [h2, encodeFrames_cons, ← encChunk_length t p, List.take_left]
    rw [encChunk_cons] at hchunk
    have hsum : dec32 (crc32 (chunkBody p.length t p) % 256)
        (crc32 (chunkBody p.length t p) / 256 % 256)
        (crc32 (chunkBody p.length t p) / 65536 % 256)
        (crc32 (chunkBody p.length t p) / 16777216 % 256) =
        crc32 (p.length % 256 :: p.length / 256 % 256 :: t :: p) := by
      rw [dec32_le32_mod, Nat.mod_eq_of_lt hcrc_lt, ← chunkBody_cons]
    by_cases hhd : r < 7 + p.length
    · have hlb' : ¬ (r = 4 ∨ r = 5) := by
        simp only [isLenByte, chunkHeaderSize] at hlb
        rw [if_pos (by omega)] at hlb
        simpa using hlb
      exact @readStepFlip _ f _ _ acc _ _ _ _ _ _ _ _ r k hfit' (dec16_le16 hplen) hchunk hflen
        (Nat.mod_lt _ (by norm_num)) (Nat.mod_lt _ (by norm_num))
        (Nat.mod_lt _ (by norm_num)) (Nat.mod_lt _ (by norm_num))
        (Nat.mod_lt _ (by norm_num)) (Nat.mod_lt _ (by norm_num)) ht256 hpbytes hsum
        hhd (fun h => hlb' (Or.inl h)) (fun h => hlb' (Or.inr h)) hk
    · cases rest with
      | nil =>
        exfalso
        rw [framesLen_cons, framesLen_nil] at hr
        omega
      | cons r0 rs =>
        have hfill : off + 7 + p.length = 32768 := by
          have := hGood.2.1
          simp only [chunkHeaderSize, blockSize] at this
          omega
        have hAle : bn * 32768 + off + framesLen ((t, p) :: r0 :: rs) ≤ file.length :=
          slice_length_le hfile (encodeFrames_length _) (by rw [framesLen_cons]; omega)
        have hchunk' : ((flipBitAt file (bn * 32768 + off + r) k).drop
            (bn * 32768 + off)).take (7 + p.length) =
            crc32 (chunkBody p.length t p) % 256 ::
            crc32 (chunkBody p.length t p) / 256 % 256 ::
            crc32 (chunkBody p.length t p) / 65536 % 256 ::
            crc32 (chunkBody p.length t p) / 16777216 % 256 ::
            p.length % 256 :: p.length / 256 % 256 :: t :: p := by
          show ((file.set (bn * 32768 + off + r) _).drop (bn * 32768 + off)).take
            (7 + p.length) = _
          rw [slice_set_outside (by omega)]
          exact hchunk
        have hflen' : (flipBitAt file (bn * 32768 + off + r) k).length < U32 := by
          simp only [flipBitAt, List.length_set]
          exact hflen
        have hstep := @readStep _ f _ _ acc _ _ _ _ _ _ _ _ hfit' (dec16_le16 hplen)
          hchunk' hflen'
        rw [hstep, hsum]
        rw [if_neg (show ¬(crc32 (p.length % 256 :: p.length / 256 % 256 :: t :: p) ≠
          crc32 (p.length % 256 :: p.length / 256 % 256 :: t :: p)) from fun h => h rfl)]
        have hnot : ¬(t = 0 ∨ t = 3) := by
          rcases hGood.1 with h | h <;> omega
        rw [if_neg hnot]
        have hbn1 : bn + 1 < U32 := by
          have := framesLen_cons t p (r0 :: rs)
          omega
        have hadd : u32add bn 1 = bn + 1 := u32add_eq (by omega)
        rw [hadd]
        have hfile' : (file.drop ((bn + 1) * 32768 + 0)).take (framesLen (r0 :: rs)) =
            encodeFrames (r0 :: rs) := by
          have h9 := slice_sub hfile (a := 7 + p.length) (n := framesLen (r0 :: rs))
            (le_of_eq (framesLen_cons t p (r0 :: rs)).symm)
          have h10 : (bn + 1) * 32768 + 0 = bn * 32768 + off + (7 + p.length) := by omega
          rw [h10, h9, encodeFrames_cons, ← encChunk_length t p, List.drop_left,
            ← encodeFrames_length, List.take_length]
        have hbytes' : ∀ x ∈ ((r0 :: rs).map Prod.snd).flatten, x < 256 := by
          intro x hx
          refine hbytes x ?_
          simp only [List.map_cons, List.flatten_cons] at *
          exact List.mem_append_right _ hx
        have hr' : r - (7 + p.length) < framesLen (r0 :: rs) := by
          rw [framesLen_cons] at hr
          omega
        have hlb' : isLenByte (r0 :: rs) (r - (7 + p.length)) = false := by
          simp only [isLenByte, chunkHeaderSize] at hlb
          rw [if_neg (by omega)] at hlb
          exact hlb
        have hrec := ih file (bn + 1) 0 (acc ++ p) f (r - (7 + p.length)) k hGood.2.2
          hfile' hbytes' hflen (by simp at hfuel ⊢; omega) hr' hlb' hk
        rw [show ((0 : Nat) : Int) = (0 : Int) from rfl] at hrec
        rw [show bn * 32768 + off + r = (bn + 1) * 32768 + 0 + (r - (7 + p.length)) from
          by omega] at *
        exact hrec

/-- Counterexample to claim C2 as stated: the chunk's two little-endian
length bytes are part of the framed bytes but are used *before* the CRC
comparison to locate the payload, so flipping a bit there can make the
parsed length overrun the block and `Read` fails with the slice
out-of-range panic rather than the invalid-CRC error.  Concretely, writing
`[1,2,3,4,5]` to a fresh segment and flipping bit 1 of file byte 4 (the low
length byte, turning the stored length 5 into 7) makes `Read` of the
returned position fail with the bounds error. -/
theorem claim_C2_counterexample :
    ((openSegmentFile 1).Write [1, 2, 3, 4, 5]).1 = .ok ⟨1, 0, 0⟩ ∧
    ({ ((openSegmentFile 1).Write [1, 2, 3, 4, 5]).2 with
        file := flipBitAt ((openSegmentFile 1).Write [1, 2, 3, 4, 5]).2.file 4 1 } :
      Segment).Read 0 0 = .error .bounds ∧
    ({ ((openSegmentFile 1).Write [1, 2, 3, 4, 5]).2 with
        file := flipBitAt ((openSegmentFile 1).Write [1, 2, 3, 4, 5]).2.file 4 1 } :
      Segment).Read 0 0 ≠ .error .invalidCRC := by
  refine ⟨by decide, by decide, by decide⟩

/-- Claim C2, amended: for every record successfully written, flipping any
single bit of the record's framed on-disk bytes at a frame offset that is
*not* one of the two length bytes of a chunk header causes `Read` of the
returned position to fail with the invalid-CRC (CorruptChunk) error; a flip
inside a length field may instead fail with a slice out-of-range panic
(see the counterexample), because the parsed length is used to slice the
block before the CRC is compared. -/
theorem claim_C2 (seg : Segment) (data : List Nat) (r k : Nat)
    (hwf : SegWF seg) (hopen : seg.closed = false)
    (hbytes : ∀ b ∈ data, b < 256)
    (hbound : seg.file.length + 8 * data.length + 65536 < U32)
    (hr : r < framesLen (writeFrameChunks seg data))
    (hnl : isLenByte (writeFrameChunks seg data) r = false)
    (hk : k < 8) :
    ∀ pos seg', seg.Write data = (.ok pos, seg') →
      ({ seg' with file := flipBitAt seg'.file (seg.maybePad.file.length + r) k } :
        Segment).Read pos.BlockNumber pos.ChunkOffset = .error .invalidCRC := by
  have hU : U32 = 4294967296 := rfl
  intro pos seg2 hw
  obtain ⟨seg', heq, hfile, hg, hflat, hfl, hne, hwf', hcl', hid'⟩ :=
    segWrite_spec seg data hwf hopen hbound
  obtain ⟨hwf1, hcbs1, hid1, hcl1, hlow, hhigh⟩ := maybePad_spec hwf (by omega)
  have hlen1 : seg.maybePad.file.length =
      seg.maybePad.currentBlockNumber * 32768 + seg.maybePad.currentBlockSize := hwf1.1
  have hseg2 : seg' = seg2 := by
    rw [hw] at heq
    exact (congrArg Prod.snd heq).symm
  have hpos : pos = ⟨seg.maybePad.id, seg.maybePad.currentBlockNumber,
      ((seg.maybePad.currentBlockSize : Nat) : Int)⟩ := by
    rw [hw] at heq
    have := congrArg Prod.fst heq
    simp only at this
    injection this with h
  subst hseg2
  subst hpos
  unfold Segment.Read
  rw [if_neg (by simp [hcl'])]
  have hfileL : (seg'.file.drop (seg.maybePad.currentBlockNumber * 32768 +
      seg.maybePad.currentBlockSize)).take (framesLen (writeFrameChunks seg data)) =
      encodeFrames (writeFrameChunks seg data) := by
    rw [hfile, ← hlen1, List.drop_left, ← encodeFrames_length, List.take_length]
  have hflen' : seg'.file.length < U32 := by
    rw [hfile]
    rw [List.length_append, encodeFrames_length]
    simp only [blockSize] at *
    omega
  have hLlen : (writeFrameChunks seg data).length ≤ framesLen (writeFrameChunks seg data) := by
    rw [framesLen_structure]
    omega
  have hframes_le : framesLen (writeFrameChunks seg data) ≤ seg'.file.length := by
    rw [hfile, List.length_append, encodeFrames_length]
    omega
  have hflip_len : (flipBitAt seg'.file (seg.maybePad.file.length + r) k).length =
      seg'.file.length := by
    simp [flipBitAt, List.length_set]
  have hrec := readGoodFlip (writeFrameChunks seg data) seg'.file
    seg.maybePad.currentBlockNumber seg.maybePad.currentBlockSize []
    (seg'.file.length + 2) r k
    hg hfileL (by rw [hflat]; exact hbytes) hflen'
    (by omega) hr hnl hk
  show readChunks (flipBitAt seg'.file (seg.maybePad.file.length + r) k)
    ((flipBitAt seg'.file (seg.maybePad.file.length + r) k).length + 2)
    seg.maybePad.currentBlockNumber ((seg.maybePad.currentBlockSize : Nat) : Int) [] =
    .error .invalidCRC
  rw [hflip_len]
  rw [show seg.maybePad.file.length + r = seg.maybePad.currentBlockNumber * 32768 +
    seg.maybePad.currentBlockSize + r from by rw [hlen1]]
  exact hrec

theorem claim_C2_witness :
    ({ ((openSegmentFile 1).Write [1, 2, 3]).2 with
        file := flipBitAt ((openSegmentFile 1).Write [1, 2, 3]).2.file
          ((openSegmentFile 1).maybePad.file.length + 7) 0 } : Segment).Read
        (⟨1, 0, 0⟩ : ChunkPosition).BlockNumber (⟨1, 0, 0⟩ : ChunkPosition).ChunkOffset =
      .error .invalidCRC :=
  claim_C2 (openSegmentFile 1) [1, 2, 3] 7 0 (openSegmentFile_wf 1) rfl (by decide)
    (by decide) (by decide) (by decide) (by decide)
    ⟨1, 0, 0⟩ ((openSegmentFile 1).Write [1, 2, 3]).2 rfl
